import Mathlib

/-!
Shallow embedding of `src/update_csv.py` (repository meloz85/Yemek).

Strings are modelled as `List Char` (Python strings are sequences of Unicode
code points).  Regex operations of the script are embedded as explicit
left-to-right scanners with the exact semantics of `str.replace` / `re.sub`
on the fixed literal patterns the script uses.  Character classes (`\w`,
`\s`, lowercasing) are modelled over the alphabets occurring in the data
(ASCII, Latin-1 supplement, Latin Extended-A/B, Cyrillic); letters of
alphabets the repository never touches (e.g. CJK) are left out of the
classes, which is noted at each definition.
-/

set_option maxRecDepth 8000

/-- Letters and digits as the regex word class sees them, minus the
underscore: ASCII alphanumerics plus the letters of Latin-1 supplement,
Latin Extended-A/B and Cyrillic (the alphabets occurring in this data). -/
def isLetterOrDigit (c : Char) : Bool :=
  (0x30 ≤ c.toNat && c.toNat ≤ 0x39) || (0x41 ≤ c.toNat && c.toNat ≤ 0x5A) ||
  (0x61 ≤ c.toNat && c.toNat ≤ 0x7A) ||
  (0xC0 ≤ c.toNat && c.toNat ≤ 0x24F && c.toNat != 0xD7 && c.toNat != 0xF7) ||
  c.toNat == 0xAA || c.toNat == 0xB5 || c.toNat == 0xBA ||
  (0x400 ≤ c.toNat && c.toNat ≤ 0x4FF)

/-- The regex `\w` class used by `\b`: letters, digits and the underscore. -/
def isWordChar (c : Char) : Bool :=
  isLetterOrDigit c || c == '_'

/-- Python `\s` / `str.strip` whitespace. -/
def isSpaceChar (c : Char) : Bool :=
  c.toNat == 0x20 || (0x09 ≤ c.toNat && c.toNat ≤ 0x0D) ||
  (0x1C ≤ c.toNat && c.toNat ≤ 0x1F) || c.toNat == 0x85 || c.toNat == 0xA0 ||
  c.toNat == 0x1680 || (0x2000 ≤ c.toNat && c.toNat ≤ 0x200A) ||
  c.toNat == 0x2028 || c.toNat == 0x2029 || c.toNat == 0x202F ||
  c.toNat == 0x205F || c.toNat == 0x3000

/-- `text.replace('İ', 'i').replace('I', 'ı')` (src line 46), per character. -/
def trReplaceChar (c : Char) : Char :=
  if c == 'İ' then 'i' else if c == 'I' then 'ı' else c

/-- Single-character case of Python `str.lower`, on the modelled alphabets:
ASCII, Latin-1, the Turkish letters Ğ/Ş, Cyrillic.  The only multi-character
lowering that could arise here (`İ`) is handled by `pyLowerChars`. -/
def pyLowerChar (c : Char) : Char :=
  if 0x41 ≤ c.toNat && c.toNat ≤ 0x5A then Char.ofNat (c.toNat + 32)
  else if 0xC0 ≤ c.toNat && c.toNat ≤ 0xDE && c.toNat != 0xD7 then Char.ofNat (c.toNat + 32)
  else if c == 'Ğ' then 'ğ'
  else if c == 'Ş' then 'ş'
  else if c.toNat == 0x401 then Char.ofNat 0x451
  else if 0x410 ≤ c.toNat && c.toNat ≤ 0x42F then Char.ofNat (c.toNat + 32)
  else c

/-- Python `str.lower` on one character, as a string: `İ` (U+0130) lowers to
the two-character sequence `i` + combining dot above (U+0307). -/
def pyLowerChars (c : Char) : List Char :=
  if c.toNat == 0x130 then ['i', Char.ofNat 0x307] else [pyLowerChar c]

/-- Python `str.lower`. -/
def pyLower (s : List Char) : List Char := (s.map pyLowerChars).flatten

/-- `normalize_turkish` (src lines 41–48). -/
def normalize_turkish (t : List Char) : List Char :=
  if t = [] then [] else pyLower (t.map trReplaceChar)

/-- The simple (single-character) Unicode lowercase used by `re` for
IGNORECASE matching; unlike `str.lower` it takes `İ` (U+0130) to plain `i`. -/
def sreLower (c : Char) : Char :=
  if 0x41 ≤ c.toNat && c.toNat ≤ 0x5A then Char.ofNat (c.toNat + 32)
  else if 0xC0 ≤ c.toNat && c.toNat ≤ 0xDE && c.toNat != 0xD7 then Char.ofNat (c.toNat + 32)
  else if c == 'Ğ' then 'ğ'
  else if c == 'Ş' then 'ş'
  else if c.toNat == 0x130 then 'i'
  else if c.toNat == 0x401 then Char.ofNat 0x451
  else if 0x410 ≤ c.toNat && c.toNat ≤ 0x42F then Char.ofNat (c.toNat + 32)
  else c

/-- Character equivalence of `re.IGNORECASE`: equal simple lowercase forms,
extended by CPython's i/dotless-ı and s/long-ſ equivalence pairs (its further
pairs involve letters outside the modelled alphabets). -/
def icEq (a b : Char) : Bool :=
  sreLower a == sreLower b ||
  (sreLower a == 'i' && sreLower b == 'ı') || (sreLower a == 'ı' && sreLower b == 'i') ||
  (sreLower a == 's' && sreLower b == 'ſ') || (sreLower a == 'ſ' && sreLower b == 's')

/-- Case-sensitive character equality (plain literal matching). -/
def ceq (a b : Char) : Bool := a == b

def isWordOpt : Option Char → Bool
  | none => false
  | some c => isWordChar c

/-- `GLUTEN_KEYWORDS` (src lines 13–18). -/
def GLUTEN_KEYWORDS : List (List Char) :=
  ["ekmek", "pide", "börek", "böreğ", "makarna", "spagetti", "bulgur", "un",
   "şehriye", "mantı", "simit", "galeta", "pane", "bisküvi", "kraker",
   "tarhana", "yulaf", "çavdar", "erişte", "lazanya", "canneloni",
   "ravioli", "fusilli", "farfalle", "tagliatelle", "şehriy", "canaloni"].map String.data

/-- `MILK_KEYWORDS` (src lines 20–25). -/
def MILK_KEYWORDS : List (List Char) :=
  ["süt", "yoğurt", "peynir", "peynır", "kaşar", "kasar", "krema",
   "tereyağ", "muhallebi", "cacık", "ayran", "beşamel", "labne", "lor",
   "parmesan", "mozarella", "mascarpone", "kremali", "sütlü", "graten",
   "beğendi"].map String.data

/-- `EGG_KEYWORDS` (src lines 27–29). -/
def EGG_KEYWORDS : List (List Char) :=
  ["yumurta", "omlet", "menemen", "mayonez"].map String.data

/-- `FISH_KEYWORDS` (src lines 31–39). -/
def FISH_KEYWORDS : List (List Char) :=
  ["balık", "balik", "somon", "ton", "levrek", "çipura", "cipura",
   "kalamar", "karides", "karıdes", "ahtapot", "hamsi", "palamut",
   "uskumru", "mezgit", "sardalya", "çinekop", "cinekop", "barbun",
   "barb", "kılıç", "kiliç", "kolyos", "orkinos", "lüfer", "lufer",
   "alabalık", "alabalik", "dil balığı", "sübye", "subye", "yengeç",
   "yengec", "paella", "deniz mahsülleri", "denizmahsülleri",
   "deniz ürünleri", "çupra", "çipura", "cipura", "istavrit", "istravit"].map String.data

/-- `matchPrefix eq w t`: the characters of `w` match the front of `t`
pointwise under the character relation `eq`. -/
def matchPrefix (eq : Char → Char → Bool) : List Char → List Char → Bool
  | [], _ => true
  | _ :: _, [] => false
  | a :: as, c :: cs => eq a c && matchPrefix eq as cs

/-- `\b` at position `i` of `s`: the wordness of the two neighbouring
characters differs (string edges count as non-word). -/
def bAt (s : List Char) (i : Nat) : Bool :=
  (if i = 0 then false else isWordOpt s[i-1]?) != isWordOpt s[i]?

/-- `re.search(r'\b' + re.escape(kw) + r'\b', s) is not None` for literal `kw`
(src lines 60–61). -/
def searchWordB (kw s : List Char) : Bool :=
  (List.range (s.length + 1)).any fun i =>
    matchPrefix ceq kw (s.drop i) && bAt s i && bAt s (i + kw.length)

/-- `kw in s` — substring containment (src line 65). -/
def containsSub (kw s : List Char) : Bool :=
  (List.range (s.length + 1)).any fun i => matchPrefix ceq kw (s.drop i)

/-- The keyword loop of `check_allergen` (src lines 55–67). -/
def checkKeywords (tn : List Char) : List (List Char) → Nat
  | [] => 0
  | kw :: kws =>
    let kn := normalize_turkish kw
    if kn.length ≤ 2 then
      if searchWordB kn tn then 1 else checkKeywords tn kws
    else
      if containsSub kn tn then 1 else checkKeywords tn kws

/-- `check_allergen` (src lines 50–67). -/
def check_allergen (text : List Char) (keywords : List (List Char)) : Nat :=
  if text = [] then 0 else checkKeywords (normalize_turkish text) keywords

/-- One regex position test for `\b(alt1|...)\b`: alternatives in pattern
order; an alternative succeeds when its characters match under `eq` and the
trailing `\b` holds; yields the matched length. -/
def tryAlts (eq : Char → Char → Bool) (alts : List (List Char)) (t : List Char) : Option Nat :=
  alts.findSome? fun alt =>
    if !alt.isEmpty && matchPrefix eq alt t &&
       (isWordOpt t[alt.length - 1]? != isWordOpt t[alt.length]?)
    then some alt.length else none

/-- Scanner of `re.sub(r'\b(alt1|...|altn)\b', repl, ·)`: walks the subject
left to right.  `prev` is the previous character of the original text
(`re.sub` judges `\b` on the original text), `skip` counts characters of a
match already consumed. -/
def swGo (eq : Char → Char → Bool) (alts : List (List Char)) (repl : List Char) :
    List Char → Option Char → Nat → List Char
  | [], _, _ => []
  | c :: rest, _, skip + 1 => swGo eq alts repl rest (some c) skip
  | c :: rest, prev, 0 =>
    if isWordOpt prev != isWordChar c then
      match tryAlts eq alts (c :: rest) with
      | some k => repl ++ swGo eq alts repl rest (some c) (k - 1)
      | none => c :: swGo eq alts repl rest (some c) 0
    else c :: swGo eq alts repl rest (some c) 0

/-- `re.sub(r'\b(alt1|...|altn)\b', repl, s)`. -/
def subWord (eq : Char → Char → Bool) (alts : List (List Char)) (repl : List Char)
    (s : List Char) : List Char :=
  swGo eq alts repl s none 0

/-- Scanner of `str.replace(pat, repl)` (equally: `re.sub` on a literal
pattern): left-to-right, non-overlapping.  All patterns the script passes
are nonempty. -/
def raGo (pat repl : List Char) : List Char → Nat → List Char
  | [], _ => []
  | _ :: rest, skip + 1 => raGo pat repl rest skip
  | c :: rest, 0 =>
    if matchPrefix ceq pat (c :: rest) then repl ++ raGo pat repl rest (pat.length - 1)
    else c :: raGo pat repl rest 0

/-- `s.replace(pat, repl)`. -/
def replaceAll (pat repl s : List Char) : List Char := raGo pat repl s 0

/-- Scanner of `re.sub(r'\s+', ' ', ·)`: the flag records whether we are
inside a whitespace run whose first character was already emitted as `' '`. -/
def cwGo : List Char → Bool → List Char
  | [], _ => []
  | c :: rest, true => if isSpaceChar c then cwGo rest true else c :: cwGo rest false
  | c :: rest, false => if isSpaceChar c then ' ' :: cwGo rest true else c :: cwGo rest false

/-- `re.sub(r'\s+', ' ', s)`. -/
def collapseWs (s : List Char) : List Char := cwGo s false

/-- Removes trailing `str.strip` whitespace. -/
def dropTrailWs : List Char → List Char
  | [] => []
  | c :: rest =>
    let r := dropTrailWs rest
    if r.isEmpty && isSpaceChar c then [] else c :: r

/-- `s.strip()`. -/
def stripWs (s : List Char) : List Char := dropTrailWs (s.dropWhile isSpaceChar)

/-- `improve_english` (src lines 69–85). -/
def improve_english (t : List Char) : List Char :=
  if t = [] then t else
    subWord icEq ["KEBAP".data] "Kebab".data
      (subWord icEq ["STIL".data, "Stil".data, "USULÜ".data, "USULU".data] "Style".data
        (replaceAll "ADANA STIL KEBAP".data "Adana Style Kebab".data
          (replaceAll "ADANA STYLE KEBAP".data "Adana Style Kebab".data
            (replaceAll "SAUTEED OF SHRIMP".data "Sauteed Shrimp".data t))))

/-- `improve_german` (src lines 87–105). -/
def improve_german (t : List Char) : List Char :=
  if t = [] then t else
    stripWs (collapseWs
      (subWord ceq ["Stil".data] []
        (subWord ceq ["STIL".data] []
          (replaceAll "STILFRIKADELLE".data "FRIKADELLE".data
            (replaceAll "STILFILET".data "FILET".data
              (replaceAll "STILSUPPE".data "SUPPE".data t))))))

/-- `improve_russian` (src lines 107–116). -/
def improve_russian (t : List Char) : List Char :=
  if t = [] then t else stripWs (collapseWs t)

/-- Python `str(n)`. -/
def pyStr (n : Nat) : List Char := (Nat.repr n).data

/-- The body of the `try` block of `process_csv` for a well-formed data row
(src lines 140–171): fields are extracted by position, the four flags are
recomputed from the Turkish name, the three translations are cleaned, and a
fresh 9-field row is built. -/
def process_row (row : List (List Char)) : List (List Char) :=
  let id_num := row.getD 0 []
  let tr := row.getD 1 []
  let en := row.getD 2 []
  let de := row.getD 3 []
  let ru := row.getD 4 []
  [id_num, tr, improve_english en, improve_german de, improve_russian ru,
   pyStr (check_allergen tr GLUTEN_KEYWORDS), pyStr (check_allergen tr MILK_KEYWORDS),
   pyStr (check_allergen tr EGG_KEYWORDS), pyStr (check_allergen tr FISH_KEYWORDS)]

/-- `new_gluten != gluten or ... or new_fish != fish` (src line 158). -/
def allergensChangedB (row : List (List Char)) : Bool :=
  (pyStr (check_allergen (row.getD 1 []) GLUTEN_KEYWORDS) != row.getD 5 []) ||
  (pyStr (check_allergen (row.getD 1 []) MILK_KEYWORDS) != row.getD 6 []) ||
  (pyStr (check_allergen (row.getD 1 []) EGG_KEYWORDS) != row.getD 7 []) ||
  (pyStr (check_allergen (row.getD 1 []) FISH_KEYWORDS) != row.getD 8 [])

/-- `new_en != en or new_de != de or new_ru != ru` (src line 166). -/
def translationsChangedB (row : List (List Char)) : Bool :=
  (improve_english (row.getD 2 []) != row.getD 2 []) ||
  (improve_german (row.getD 3 []) != row.getD 3 []) ||
  (improve_russian (row.getD 4 []) != row.getD 4 [])

/-- The row loop of `process_csv` (src lines 130–178) over rows enumerated
from `i`; yields the output rows and the counters
`(rows_processed, allergens_updated, translations_improved)`.
Every operation of the loop body is total on lists of strings, so the
`except` branch of the source is unreachable in this model. -/
def processRows : Nat → List (List (List Char)) → List (List (List Char)) × Nat × Nat × Nat
  | _, [] => ([], 0, 0, 0)
  | i, row :: rest =>
    let next := processRows (i+1) rest
    if i = 0 then (row :: next.1, next.2)
    else if row.length < 9 then (row :: next.1, next.2)
    else (process_row row :: next.1, next.2.1 + 1,
          next.2.2.1 + (if allergensChangedB row then 1 else 0),
          next.2.2.2 + (if translationsChangedB row then 1 else 0))

/-- `process_csv` without the file I/O around the row loop. -/
def process_csv (rows : List (List (List Char))) :
    List (List (List Char)) × Nat × Nat × Nat :=
  processRows 0 rows

def ldOpt : Option Char → Bool
  | none => false
  | some c => isLetterOrDigit c

/-- The short-keyword whole-word rule exactly as the claim words it: an
occurrence of `kw` bounded on both sides by non-letter/digit characters or
string edges.  (This follows the claim's words, to be compared with the
code's `\b`, which also treats the underscore as a word character.) -/
def claimShortKwMatch (kw s : List Char) : Bool :=
  (List.range (s.length + 1)).any fun i =>
    matchPrefix ceq kw (s.drop i) &&
    !(if i = 0 then false else ldOpt s[i-1]?) &&
    !(ldOpt s[i + kw.length]?)

/-- A whole-word occurrence of `kw` somewhere in `s`: the characters match
and both ends sit on `\b` boundaries. -/
def WordOccur (kw s : List Char) : Prop :=
  ∃ i, matchPrefix ceq kw (s.drop i) = true ∧ bAt s i = true ∧ bAt s (i + kw.length) = true

/-- A substring occurrence of `kw` in `s`. -/
def SubOccur (kw s : List Char) : Prop := ∃ a b, s = a ++ kw ++ b

/-- The matching rule of `check_allergen` for a single keyword, stated
declaratively: the normalized keyword matches the normalized subject as a
whole word when its length is at most 2, and as a plain substring
otherwise. -/
def KwMatches (kw text : List Char) : Prop :=
  ((normalize_turkish kw).length ≤ 2 ∧
    WordOccur (normalize_turkish kw) (normalize_turkish text)) ∨
  (2 < (normalize_turkish kw).length ∧
    SubOccur (normalize_turkish kw) (normalize_turkish text))

def eqCh (eq : Char → Char → Bool) : Option Char → Option Char → Bool
  | some a, some b => eq a b
  | _, _ => false

/-- No alignment of `q` overlapping a copy of `r` is consistent under `eq`:
first component — `q` starting inside `r`; second — `q` starting `k`
characters before `r` (its suffix `q.drop k` aligned with the front of
`r`).  Each aligned window must contain a character mismatch. -/
def noOverlap (eq : Char → Char → Bool) (q r : List Char) : Bool :=
  ((List.range r.length).all fun i =>
    (List.range (min q.length (r.length - i))).any fun k => !(eqCh eq q[k]? r[i+k]?)) &&
  ((List.range q.length).all fun k =>
    k == 0 || (List.range (min (q.length - k) r.length)).any fun m => !(eqCh eq q[k+m]? r[m]?))

/-- Wordness of the character before position `i` of `z`, where `prev` is
the character virtually preceding `z`. -/
def prevAt (prev : Option Char) (z : List Char) (i : Nat) : Bool :=
  if i = 0 then isWordOpt prev else isWordOpt z[i-1]?

/-- A whole-word match (under `eq`) of the nonempty alternative `a` at
position `i` of `z`, with `prev` the character virtually preceding `z`. -/
def WBMCtx (eq : Char → Char → Bool) (a : List Char) (prev : Option Char)
    (z : List Char) (i : Nat) : Prop :=
  matchPrefix eq a (z.drop i) = true ∧
  (prevAt prev z i != isWordOpt z[i]?) = true ∧
  (isWordOpt z[i + a.length - 1]? != isWordOpt z[i + a.length]?) = true

/-- The suffix `w` of an alternative matches the front of `t`, and the
position right after it is non-word (hence a boundary, the matched
characters being word characters). -/
def PartialWB (eq : Char → Char → Bool) (w t : List Char) : Prop :=
  matchPrefix eq w t = true ∧ isWordOpt t[w.length]? = false

def lastOpt (prev : Option Char) (l : List Char) : Option Char :=
  match l.getLast? with
  | some c => some c
  | none => prev

/-- `q` has no `eq`-match anywhere in `s`. -/
def Free (eq : Char → Char → Bool) (q s : List Char) : Prop :=
  ∀ i, matchPrefix eq q (s.drop i) = false

/-- No whole-word match of any alternative anywhere in `z` (context `prev`). -/
def NoWB (eq : Char → Char → Bool) (alts : List (List Char)) (prev : Option Char)
    (z : List Char) : Prop :=
  ∀ a ∈ alts, ∀ i, ¬ WBMCtx eq a prev z i

/-- Every alternative is nonempty, consists of word characters, and under
`eq` matches only word characters. -/
def WordAlts (eq : Char → Char → Bool) (alts : List (List Char)) : Prop :=
  ∀ a ∈ alts, a ≠ [] ∧ ∀ (j : Nat) (c : Char), eqCh eq a[j]? (some c) = true → isWordChar c = true

def noLeadWs : List Char → Bool
  | [] => true
  | c :: _ => !isSpaceChar c

/-- All whitespace characters are `' '` and no two are adjacent. -/
def wsOkB : List Char → Bool
  | [] => true
  | c :: rest =>
    (if isSpaceChar c then c == ' ' && noLeadWs rest else true) && wsOkB rest

def lastNonWs : List Char → Bool
  | [] => true
  | [c] => !isSpaceChar c
  | _ :: c :: rest => lastNonWs (c :: rest)

-- ### Basic lemmas about `matchPrefix`

theorem matchPrefix_length_le {eq : Char → Char → Bool} :
    ∀ {w t : List Char}, matchPrefix eq w t = true → w.length ≤ t.length := by
  intro w
  induction w with
  | nil => intro t _; simp
  | cons a as ih =>
    intro t h
    cases t with
    | nil => simp [matchPrefix] at h
    | cons c cs =>
      simp only [matchPrefix, Bool.and_eq_true] at h
      simpa using ih h.2

theorem matchPrefix_ceq_iff : ∀ (w t : List Char), matchPrefix ceq w t = true ↔ w <+: t := by
  intro w
  induction w with
  | nil => intro t; simp [matchPrefix]
  | cons a as ih =>
    intro t
    cases t with
    | nil => simp [matchPrefix]
    | cons c cs =>
      simp [matchPrefix, ceq, List.cons_prefix_cons, ih]

theorem matchPrefix_getElem {eq : Char → Char → Bool} :
    ∀ {w t : List Char}, matchPrefix eq w t = true → ∀ (j : Nat), j < w.length →
      eqCh eq w[j]? t[j]? = true := by
  intro w
  induction w with
  | nil => intro t _ j hj; simp at hj
  | cons a as ih =>
    intro t h j hj
    cases t with
    | nil => simp [matchPrefix] at h
    | cons c cs =>
      simp only [matchPrefix, Bool.and_eq_true] at h
      cases j with
      | zero => simpa [eqCh] using h.1
      | succ j => simpa using ih h.2 j (by simpa using hj)

-- ### Extraction lemmas for `noOverlap`

theorem noOverlap_inside {eq : Char → Char → Bool} {q r : List Char}
    (h : noOverlap eq q r = true) {i : Nat} (hi : i < r.length) (z : List Char) :
    matchPrefix eq q (r.drop i ++ z) = false := by
  by_contra hc
  rw [Bool.not_eq_false] at hc
  unfold noOverlap at h
  rw [Bool.and_eq_true] at h
  have h1 := h.1
  rw [List.all_eq_true] at h1
  have h1 := h1 i (List.mem_range.mpr hi)
  rw [List.any_eq_true] at h1
  obtain ⟨k, hk, hmis⟩ := h1
  rw [List.mem_range] at hk
  have hkq : k < q.length := lt_of_lt_of_le hk (min_le_left ..)
  have hkr : i + k < r.length := by omega
  have hg := matchPrefix_getElem hc k hkq
  rw [List.getElem?_append_left (by simp; omega)] at hg
  rw [List.getElem?_drop] at hg
  simp [hg] at hmis

theorem noOverlap_before {eq : Char → Char → Bool} {q r : List Char}
    (h : noOverlap eq q r = true) {k : Nat} (hk0 : 0 < k) (hkq : k < q.length)
    (z : List Char) :
    matchPrefix eq (q.drop k) (r ++ z) = false := by
  by_contra hc
  rw [Bool.not_eq_false] at hc
  unfold noOverlap at h
  rw [Bool.and_eq_true] at h
  have h2 := h.2
  rw [List.all_eq_true] at h2
  have h2 := h2 k (List.mem_range.mpr hkq)
  rw [Bool.or_eq_true] at h2
  rcases h2 with h2 | h2
  · simp at h2; omega
  · rw [List.any_eq_true] at h2
    obtain ⟨m, hm, hmis⟩ := h2
    rw [List.mem_range] at hm
    have hmq : m < (q.drop k).length := by simp; omega
    have hmr : m < r.length := lt_of_lt_of_le hm (min_le_right ..)
    have hg := matchPrefix_getElem hc m hmq
    rw [List.getElem?_append_left hmr] at hg
    rw [List.getElem?_drop] at hg
    simp [hg] at hmis

-- ### Characterization of the allergen matching

theorem searchWordB_iff (kw s : List Char) : searchWordB kw s = true ↔ WordOccur kw s := by
  unfold searchWordB WordOccur
  rw [List.any_eq_true]
  constructor
  · rintro ⟨i, _, hcond⟩
    rw [Bool.and_eq_true, Bool.and_eq_true] at hcond
    exact ⟨i, hcond.1.1, hcond.1.2, hcond.2⟩
  · rintro ⟨i, h1, h2, h3⟩
    refine ⟨i, List.mem_range.mpr ?_, by simp [h1, h2, h3]⟩
    by_contra hge
    push_neg at hge
    unfold bAt at h2
    have hi1 : s[i]? = none := List.getElem?_eq_none (by omega)
    have hi0 : s[i-1]? = none := List.getElem?_eq_none (by omega)
    rw [hi1, hi0] at h2
    have hne : i ≠ 0 := by omega
    simp [hne, isWordOpt] at h2

theorem containsSub_iff (kw s : List Char) : containsSub kw s = true ↔ SubOccur kw s := by
  unfold containsSub SubOccur
  rw [List.any_eq_true]
  constructor
  · rintro ⟨i, _, h⟩
    rw [matchPrefix_ceq_iff] at h
    obtain ⟨b, hb⟩ := h
    refine ⟨s.take i, b, ?_⟩
    conv_lhs => rw [← List.take_append_drop i s]
    rw [← hb, List.append_assoc]
  · rintro ⟨a, b, rfl⟩
    refine ⟨a.length, List.mem_range.mpr (by simp; omega), ?_⟩
    rw [matchPrefix_ceq_iff, List.append_assoc, List.drop_left]
    exact ⟨b, rfl⟩

theorem checkKeywords_eq_zero_or_one (tn : List Char) (kws : List (List Char)) :
    checkKeywords tn kws = 0 ∨ checkKeywords tn kws = 1 := by
  induction kws with
  | nil => left; rfl
  | cons kw kws ih =>
    by_cases h1 : (normalize_turkish kw).length ≤ 2
    · by_cases h2 : searchWordB (normalize_turkish kw) tn = true
      · right; simp [checkKeywords, h1, h2]
      · simpa [checkKeywords, h1, h2] using ih
    · by_cases h2 : containsSub (normalize_turkish kw) tn = true
      · right; simp [checkKeywords, h1, h2]
      · simpa [checkKeywords, h1, h2] using ih

theorem checkKeywords_eq_one_iff (tn : List Char) (kws : List (List Char)) :
    checkKeywords tn kws = 1 ↔ ∃ kw ∈ kws,
      ((normalize_turkish kw).length ≤ 2 ∧ searchWordB (normalize_turkish kw) tn = true) ∨
      (2 < (normalize_turkish kw).length ∧ containsSub (normalize_turkish kw) tn = true) := by
  induction kws with
  | nil => simp [checkKeywords]
  | cons kw kws ih =>
    have hstep : checkKeywords tn (kw :: kws) =
        (if (normalize_turkish kw).length ≤ 2 then
          (if searchWordB (normalize_turkish kw) tn then 1 else checkKeywords tn kws)
        else (if containsSub (normalize_turkish kw) tn then 1 else checkKeywords tn kws)) := rfl
    by_cases h1 : (normalize_turkish kw).length ≤ 2
    · by_cases h2 : searchWordB (normalize_turkish kw) tn = true
      · rw [hstep, if_pos h1, if_pos h2]
        constructor
        · intro _; exact ⟨kw, List.mem_cons_self .., Or.inl ⟨h1, h2⟩⟩
        · intro _; rfl
      · rw [hstep, if_pos h1, if_neg h2, ih]
        constructor
        · rintro ⟨k, hk, hcond⟩
          exact ⟨k, List.mem_cons_of_mem _ hk, hcond⟩
        · rintro ⟨k, hk, hcond⟩
          rcases List.mem_cons.mp hk with heq | hk'
          · subst heq
            rcases hcond with ⟨_, hc⟩ | ⟨hlen, _⟩
            · exact absurd hc h2
            · omega
          · exact ⟨k, hk', hcond⟩
    · by_cases h2 : containsSub (normalize_turkish kw) tn = true
      · rw [hstep, if_neg h1, if_pos h2]
        constructor
        · intro _; exact ⟨kw, List.mem_cons_self .., Or.inr ⟨by omega, h2⟩⟩
        · intro _; rfl
      · rw [hstep, if_neg h1, if_neg h2, ih]
        constructor
        · rintro ⟨k, hk, hcond⟩
          exact ⟨k, List.mem_cons_of_mem _ hk, hcond⟩
        · rintro ⟨k, hk, hcond⟩
          rcases List.mem_cons.mp hk with heq | hk'
          · subst heq
            rcases hcond with ⟨hlen, _⟩ | ⟨_, hc⟩
            · omega
            · exact absurd hc h2
          · exact ⟨k, hk', hcond⟩

theorem bAt_nil (i : Nat) : bAt [] i = false := by
  unfold bAt
  cases i <;> simp [isWordOpt]

theorem KwMatches_nil (kw : List Char) : ¬ KwMatches kw [] := by
  rintro (⟨_, i, _, h2, _⟩ | ⟨hlen, a, b, hab⟩)
  · rw [show normalize_turkish [] = [] from rfl] at h2
    rw [bAt_nil] at h2
    exact absurd h2 (by simp)
  · rw [show normalize_turkish [] = [] from rfl] at hab
    have := congrArg List.length hab
    simp at this
    omega

theorem check_allergen_one_iff (text : List Char) (ks : List (List Char)) :
    check_allergen text ks = 1 ↔ ∃ kw ∈ ks, KwMatches kw text := by
  unfold check_allergen
  by_cases ht : text = []
  · subst ht
    simp only [if_true]
    constructor
    · intro h; exact absurd h (by simp)
    · rintro ⟨kw, _, hm⟩; exact absurd hm (KwMatches_nil kw)
  · rw [if_neg ht, checkKeywords_eq_one_iff]
    unfold KwMatches
    constructor
    · rintro ⟨k, hk, hcond⟩
      refine ⟨k, hk, ?_⟩
      rcases hcond with ⟨hl, hs⟩ | ⟨hl, hs⟩
      · exact Or.inl ⟨hl, (searchWordB_iff ..).mp hs⟩
      · exact Or.inr ⟨hl, (containsSub_iff ..).mp hs⟩
    · rintro ⟨k, hk, hcond⟩
      refine ⟨k, hk, ?_⟩
      rcases hcond with ⟨hl, hs⟩ | ⟨hl, hs⟩
      · exact Or.inl ⟨hl, (searchWordB_iff ..).mpr hs⟩
      · exact Or.inr ⟨hl, (containsSub_iff ..).mpr hs⟩

theorem check_allergen_zero_or_one (text : List Char) (ks : List (List Char)) :
    check_allergen text ks = 0 ∨ check_allergen text ks = 1 := by
  unfold check_allergen
  by_cases ht : text = []
  · simp [ht]
  · rw [if_neg ht]; exact checkKeywords_eq_zero_or_one ..

theorem check_allergen_perm (text : List Char) {ks ks' : List (List Char)}
    (h : ks.Perm ks') : check_allergen text ks = check_allergen text ks' := by
  by_cases h1 : check_allergen text ks = 1
  · rw [h1]
    have := (check_allergen_one_iff text ks).mp h1
    obtain ⟨kw, hmem, hm⟩ := this
    exact ((check_allergen_one_iff text ks').mpr ⟨kw, h.mem_iff.mp hmem, hm⟩).symm
  · have h0 : check_allergen text ks = 0 := by
      rcases check_allergen_zero_or_one text ks with h' | h'
      · exact h'
      · exact absurd h' h1
    rw [h0]
    rcases check_allergen_zero_or_one text ks' with h' | h'
    · exact h'.symm
    · exfalso
      have := (check_allergen_one_iff text ks').mp h'
      obtain ⟨kw, hmem, hm⟩ := this
      exact h1 ((check_allergen_one_iff text ks).mpr ⟨kw, h.mem_iff.mpr hmem, hm⟩)

-- ### Row-loop lemmas

theorem processRows_header (rest : List (List (List Char))) (row : List (List Char)) :
    processRows 0 (row :: rest) = (row :: (processRows 1 rest).1, (processRows 1 rest).2) := by
  simp [processRows]

theorem processRows_short {i : Nat} (hi : i ≠ 0) {row : List (List Char)}
    (hlen : row.length < 9) (rest : List (List (List Char))) :
    processRows i (row :: rest) =
      (row :: (processRows (i+1) rest).1, (processRows (i+1) rest).2) := by
  simp [processRows, hi, hlen]

theorem processRows_data {i : Nat} (hi : i ≠ 0) {row : List (List Char)}
    (hlen : ¬ row.length < 9) (rest : List (List (List Char))) :
    processRows i (row :: rest) =
      (process_row row :: (processRows (i+1) rest).1,
       (processRows (i+1) rest).2.1 + 1,
       (processRows (i+1) rest).2.2.1 + (if allergensChangedB row then 1 else 0),
       (processRows (i+1) rest).2.2.2 + (if translationsChangedB row then 1 else 0)) := by
  simp [processRows, hi, hlen]

theorem processRows_length : ∀ (rows : List (List (List Char))) (i : Nat),
    (processRows i rows).1.length = rows.length := by
  intro rows
  induction rows with
  | nil => intro i; rfl
  | cons row rest ih =>
    intro i
    by_cases hi : i = 0
    · subst hi; rw [processRows_header]; simp [ih]
    · by_cases hlen : row.length < 9
      · rw [processRows_short hi hlen]; simp [ih]
      · rw [processRows_data hi hlen]; simp [ih]

theorem process_row_length (row : List (List Char)) : (process_row row).length = 9 := rfl

theorem process_row_fields (row : List (List Char)) :
    (process_row row).getD 0 [] = row.getD 0 [] ∧
    (process_row row).getD 1 [] = row.getD 1 [] ∧
    (process_row row).getD 2 [] = improve_english (row.getD 2 []) ∧
    (process_row row).getD 3 [] = improve_german (row.getD 3 []) ∧
    (process_row row).getD 4 [] = improve_russian (row.getD 4 []) ∧
    (process_row row).getD 5 [] = pyStr (check_allergen (row.getD 1 []) GLUTEN_KEYWORDS) ∧
    (process_row row).getD 6 [] = pyStr (check_allergen (row.getD 1 []) MILK_KEYWORDS) ∧
    (process_row row).getD 7 [] = pyStr (check_allergen (row.getD 1 []) EGG_KEYWORDS) ∧
    (process_row row).getD 8 [] = pyStr (check_allergen (row.getD 1 []) FISH_KEYWORDS) :=
  ⟨rfl, rfl, rfl, rfl, rfl, rfl, rfl, rfl, rfl⟩

theorem process_row_take5 (f0 f1 f2 f3 f4 : List Char) (rest rest' : List (List Char)) :
    process_row (f0 :: f1 :: f2 :: f3 :: f4 :: rest) =
    process_row (f0 :: f1 :: f2 :: f3 :: f4 :: rest') := rfl

theorem pyStr_check_mem (text : List Char) (ks : List (List Char)) :
    pyStr (check_allergen text ks) = "0".data ∨ pyStr (check_allergen text ks) = "1".data := by
  rcases check_allergen_zero_or_one text ks with h | h <;> rw [h]
  · left; rfl
  · right; rfl

-- ### Whitespace collapsing and stripping

theorem wsOkB_rest {c : Char} {rest : List Char} (h : wsOkB (c :: rest) = true) :
    wsOkB rest = true := by
  unfold wsOkB at h
  rw [Bool.and_eq_true] at h
  exact h.2

theorem wsOkB_space {c : Char} {rest : List Char} (h : wsOkB (c :: rest) = true)
    (hc : isSpaceChar c = true) : c = ' ' ∧ noLeadWs rest = true := by
  unfold wsOkB at h
  rw [Bool.and_eq_true] at h
  have h1 := h.1
  rw [if_pos hc, Bool.and_eq_true] at h1
  exact ⟨by simpa using h1.1, h1.2⟩

theorem cwGo_wsOk : ∀ (s : List Char),
    wsOkB (cwGo s false) = true ∧ wsOkB (cwGo s true) = true ∧
    noLeadWs (cwGo s true) = true := by
  intro s
  induction s with
  | nil => exact ⟨rfl, rfl, rfl⟩
  | cons c rest ih =>
    by_cases hc : isSpaceChar c = true
    · refine ⟨?_, ?_, ?_⟩
      · simp only [cwGo, hc, if_true]
        unfold wsOkB
        simp [isSpaceChar, ih.2.1, ih.2.2]
      · simp only [cwGo, hc, if_true]
        exact ih.2.1
      · simp only [cwGo, hc, if_true]
        exact ih.2.2
    · refine ⟨?_, ?_, ?_⟩
      · simp only [cwGo, hc, if_false]
        unfold wsOkB
        simp [hc, ih.1]
      · simp only [cwGo, hc, if_false]
        unfold wsOkB
        simp [hc, ih.1]
      · simp only [cwGo, hc, if_false]
        simp [noLeadWs, hc]

theorem wsOkB_dropWhile : ∀ {s : List Char}, wsOkB s = true →
    wsOkB (s.dropWhile isSpaceChar) = true := by
  intro s
  induction s with
  | nil => intro h; exact h
  | cons c rest ih =>
    intro h
    by_cases hc : isSpaceChar c = true
    · rw [List.dropWhile_cons, if_pos hc]
      exact ih (wsOkB_rest h)
    · rw [List.dropWhile_cons, if_neg hc]
      exact h

theorem noLeadWs_dropWhile (s : List Char) :
    noLeadWs (s.dropWhile isSpaceChar) = true := by
  induction s with
  | nil => rfl
  | cons c rest ih =>
    by_cases hc : isSpaceChar c = true
    · rw [List.dropWhile_cons, if_pos hc]; exact ih
    · rw [List.dropWhile_cons, if_neg hc]; simp [noLeadWs, hc]

theorem dropTrailWs_head : ∀ {s : List Char}, noLeadWs s = true →
    noLeadWs (dropTrailWs s) = true := by
  intro s h
  cases s with
  | nil => exact h
  | cons c rest =>
    unfold dropTrailWs
    by_cases hcase : ((dropTrailWs rest).isEmpty && isSpaceChar c) = true
    · rw [if_pos hcase]; rfl
    · rw [if_neg hcase]
      simpa [noLeadWs] using h

theorem wsOkB_dropTrail : ∀ {s : List Char}, wsOkB s = true →
    wsOkB (dropTrailWs s) = true := by
  intro s
  induction s with
  | nil => intro h; exact h
  | cons c rest ih =>
    intro h
    unfold dropTrailWs
    by_cases hcase : ((dropTrailWs rest).isEmpty && isSpaceChar c) = true
    · rw [if_pos hcase]; rfl
    · rw [if_neg hcase]
      unfold wsOkB
      rw [Bool.and_eq_true]
      refine ⟨?_, ih (wsOkB_rest h)⟩
      by_cases hc : isSpaceChar c = true
      · rw [if_pos hc]
        have hsp := wsOkB_space h hc
        simp [hsp.1, dropTrailWs_head hsp.2]
      · rw [if_neg hc]

theorem dropTrailWs_last : ∀ (s : List Char), lastNonWs (dropTrailWs s) = true := by
  intro s
  induction s with
  | nil => rfl
  | cons c rest ih =>
    unfold dropTrailWs
    by_cases hcase : ((dropTrailWs rest).isEmpty && isSpaceChar c) = true
    · rw [if_pos hcase]; rfl
    · rw [if_neg hcase]
      rcases hr : dropTrailWs rest with _ | ⟨d, r'⟩
      · have hc : isSpaceChar c = false := by
          by_cases hcc : isSpaceChar c = true
          · exfalso
            apply hcase
            rw [Bool.and_eq_true]
            exact ⟨by simp [hr], hcc⟩
          · simpa using hcc
        simp [lastNonWs, hc]
      · show lastNonWs (c :: d :: r') = true
        unfold lastNonWs
        rw [← hr]
        exact ih

theorem cwGo_stable : ∀ (s : List Char), wsOkB s = true →
    cwGo s false = s ∧ (noLeadWs s = true → cwGo s true = s) := by
  intro s
  induction s with
  | nil => intro _; exact ⟨rfl, fun _ => rfl⟩
  | cons c rest ih =>
    intro h
    have ih' := ih (wsOkB_rest h)
    by_cases hc : isSpaceChar c = true
    · have hsp := wsOkB_space h hc
      constructor
      · simp only [cwGo, hc, if_true]
        rw [ih'.2 hsp.2, hsp.1]
      · intro hlead
        simp [noLeadWs, hc] at hlead
    · constructor
      · simp only [cwGo]
        rw [if_neg hc, ih'.1]
      · intro _
        simp only [cwGo]
        rw [if_neg hc, ih'.1]

theorem dropWhile_ws_stable {s : List Char} (h : noLeadWs s = true) :
    s.dropWhile isSpaceChar = s := by
  cases s with
  | nil => rfl
  | cons c rest =>
    have hc : isSpaceChar c = false := by simpa [noLeadWs] using h
    rw [List.dropWhile_cons, if_neg (by simp [hc])]

theorem dropTrailWs_stable : ∀ {s : List Char}, lastNonWs s = true →
    dropTrailWs s = s := by
  intro s
  induction s with
  | nil => intro _; rfl
  | cons c rest ih =>
    intro h
    cases rest with
    | nil =>
      have hc : isSpaceChar c = false := by simpa [lastNonWs] using h
      unfold dropTrailWs
      rw [if_neg (by simp [hc, dropTrailWs])]
      rfl
    | cons d r' =>
      have h' : lastNonWs (d :: r') = true := by
        unfold lastNonWs at h
        exact h
      have := ih h'
      unfold dropTrailWs
      rw [this]
      rw [if_neg (by simp)]

theorem improve_russian_idem (t : List Char) :
    improve_russian (improve_russian t) = improve_russian t := by
  by_cases ht : t = []
  · subst ht; rfl
  · unfold improve_russian
    rw [if_neg ht]
    by_cases hy : stripWs (collapseWs t) = []
    · rw [if_pos hy]
    · rw [if_neg hy]
      have hok : wsOkB (stripWs (collapseWs t)) = true := by
        unfold stripWs
        exact wsOkB_dropTrail (wsOkB_dropWhile (cwGo_wsOk t).1)
      have hlead : noLeadWs (stripWs (collapseWs t)) = true := by
        unfold stripWs
        exact dropTrailWs_head (noLeadWs_dropWhile (collapseWs t))
      have hlast : lastNonWs (stripWs (collapseWs t)) = true := dropTrailWs_last ..
      have hcol : collapseWs (stripWs (collapseWs t)) = stripWs (collapseWs t) :=
        (cwGo_stable _ hok).1
      have hstrip : stripWs (stripWs (collapseWs t)) = stripWs (collapseWs t) := by
        unfold stripWs
        rw [show List.dropWhile isSpaceChar (dropTrailWs (List.dropWhile isSpaceChar (collapseWs t))) = dropTrailWs (List.dropWhile isSpaceChar (collapseWs t)) from dropWhile_ws_stable hlead]
        exact dropTrailWs_stable hlast
      rw [hcol]
      exact hstrip

-- ### Lemmas about the literal-replacement scanner `raGo`

theorem Free_rest {eq : Char → Char → Bool} {q : List Char} {c : Char} {rest : List Char}
    (h : Free eq q (c :: rest)) : Free eq q rest := fun i => h (i+1)

theorem Free_drop {eq : Char → Char → Bool} {q s : List Char} (h : Free eq q s) (k : Nat) :
    Free eq q (s.drop k) := by
  intro i
  rw [List.drop_drop]
  exact h _

theorem raGo_skip (pat repl : List Char) : ∀ (k : Nat) (s : List Char),
    raGo pat repl s k = raGo pat repl (s.drop k) 0 := by
  intro k
  induction k with
  | zero => intro s; rw [List.drop_zero]
  | succ k ih =>
    intro s
    cases s with
    | nil => rfl
    | cons c rest =>
      rw [show raGo pat repl (c :: rest) (k+1) = raGo pat repl rest k from rfl, ih,
        List.drop_succ_cons]

theorem raGo_cons_eq (pat repl : List Char) (c : Char) (rest : List Char) :
    raGo pat repl (c :: rest) 0 =
      if matchPrefix ceq pat (c :: rest) then repl ++ raGo pat repl rest (pat.length - 1)
      else c :: raGo pat repl rest 0 := rfl

theorem raGo_stable (pat repl : List Char) : ∀ (s : List Char),
    Free ceq pat s → raGo pat repl s 0 = s := by
  intro s
  induction s with
  | nil => intro _; rfl
  | cons c rest ih =>
    intro hf
    have hm : matchPrefix ceq pat (c :: rest) = false := by
      have := hf 0
      simpa using this
    rw [raGo_cons_eq, hm]
    simp only [Bool.false_eq_true, if_false]
    rw [ih (Free_rest hf)]

theorem raGo_free_main (pat repl q : List Char) (hp : pat ≠ []) (hq : q ≠ [])
    (hno : noOverlap ceq q repl = true) :
    ∀ (n : Nat) (s : List Char), s.length ≤ n →
    (∀ j, matchPrefix ceq q (s.drop j) = true → matchPrefix ceq pat (s.drop j) = true) →
    (∀ i, matchPrefix ceq q ((raGo pat repl s 0).drop i) = false) ∧
    (∀ k, 0 < k → matchPrefix ceq (q.drop k) (raGo pat repl s 0) = true →
      matchPrefix ceq (q.drop k) s = true) := by
  intro n
  induction n with
  | zero =>
    intro s hlen _
    have hs : s = [] := by
      cases s with
      | nil => rfl
      | cons c rest => simp at hlen
    subst hs
    constructor
    · intro i
      show matchPrefix ceq q (([] : List Char).drop i) = false
      rw [List.drop_nil]
      cases q with
      | nil => exact absurd rfl hq
      | cons a as => rfl
    · intro k _ h
      exact h
  | succ n ih =>
    intro s hlen hsub
    cases s with
    | nil =>
      constructor
      · intro i
        show matchPrefix ceq q (([] : List Char).drop i) = false
        rw [List.drop_nil]
        cases q with
        | nil => exact absurd rfl hq
        | cons a as => rfl
      · intro k _ h
        exact h
    | cons c rest =>
      by_cases hm : matchPrefix ceq pat (c :: rest) = true
      · -- the scanner matches `pat` here and emits `repl`
        have hdrop : rest.drop (pat.length - 1) = (c :: rest).drop pat.length := by
          cases pat with
          | nil => exact absurd rfl hp
          | cons p ps =>
            simp only [List.length_cons, Nat.add_sub_cancel]
            rw [List.drop_succ_cons]
        have hstep : raGo pat repl (c :: rest) 0 =
            repl ++ raGo pat repl ((c :: rest).drop pat.length) 0 := by
          rw [raGo_cons_eq, if_pos hm, raGo_skip, hdrop]
        have hlen' : ((c :: rest).drop pat.length).length ≤ n := by
          have : pat.length ≠ 0 := by
            cases pat with
            | nil => exact absurd rfl hp
            | cons p ps => simp
          simp only [List.length_drop, List.length_cons]
          simp only [List.length_cons] at hlen
          omega
        have hsub' : ∀ j, matchPrefix ceq q (((c :: rest).drop pat.length).drop j) = true →
            matchPrefix ceq pat (((c :: rest).drop pat.length).drop j) = true := by
          intro j
          rw [List.drop_drop]
          exact hsub _
        have IH := ih ((c :: rest).drop pat.length) hlen' hsub'
        rw [hstep]
        constructor
        · intro i
          by_cases hi : i < repl.length
          · have hsplit : (repl ++ raGo pat repl ((c :: rest).drop pat.length) 0).drop i =
                repl.drop i ++ raGo pat repl ((c :: rest).drop pat.length) 0 := by
              rw [List.drop_append_eq_append_drop]
              rw [show i - repl.length = 0 by omega, List.drop_zero]
            rw [hsplit]
            exact noOverlap_inside hno hi _
          · have hsplit : (repl ++ raGo pat repl ((c :: rest).drop pat.length) 0).drop i =
                (raGo pat repl ((c :: rest).drop pat.length) 0).drop (i - repl.length) := by
              rw [List.drop_append_eq_append_drop]
              rw [List.drop_eq_nil_of_le (by omega), List.nil_append]
            rw [hsplit]
            exact IH.1 _
        · intro k hk h
          by_cases hkq : k < q.length
          · exact absurd h (by simp [noOverlap_before hno hk hkq])
          · have : q.drop k = [] := List.drop_eq_nil_of_le (by omega)
            rw [this]
            rfl
      · -- the scanner keeps `c`
        have hstep : raGo pat repl (c :: rest) 0 = c :: raGo pat repl rest 0 := by
          rw [raGo_cons_eq, if_neg (by simp [hm])]
        have hlen' : rest.length ≤ n := by
          simp only [List.length_cons] at hlen
          omega
        have hsub' : ∀ j, matchPrefix ceq q (rest.drop j) = true →
            matchPrefix ceq pat (rest.drop j) = true := fun j => hsub (j+1)
        have IH := ih rest hlen' hsub'
        rw [hstep]
        constructor
        · intro i
          cases i with
          | succ i =>
            show matchPrefix ceq q ((raGo pat repl rest 0).drop i) = false
            exact IH.1 i
          | zero =>
            rw [List.drop_zero]
            by_contra hc0
            rw [Bool.not_eq_false] at hc0
            cases q with
            | nil => exact absurd rfl hq
            | cons a q' =>
              rw [show matchPrefix ceq (a :: q') (c :: raGo pat repl rest 0) =
                  (ceq a c && matchPrefix ceq q' (raGo pat repl rest 0)) from rfl,
                Bool.and_eq_true] at hc0
              have hq' : matchPrefix ceq ((a :: q').drop 1) rest = true := by
                cases q' with
                | nil => rfl
                | cons b q'' => exact IH.2 1 (by omega) (by simpa using hc0.2)
              have hqs : matchPrefix ceq (a :: q') (c :: rest) = true := by
                rw [show matchPrefix ceq (a :: q') (c :: rest) =
                    (ceq a c && matchPrefix ceq q' rest) from rfl, Bool.and_eq_true]
                exact ⟨hc0.1, by simpa using hq'⟩
              have := hsub 0 (by simpa using hqs)
              rw [List.drop_zero] at this
              exact absurd this (by simp [hm])
        · intro k hk h
          by_cases hkq : k < q.length
          · have hne : q.drop k ≠ [] := by
              intro hnil
              have := congrArg List.length hnil
              simp at this
              omega
            rcases hqk : q.drop k with _ | ⟨a, w⟩
            · exact absurd hqk hne
            · rw [hqk] at h
              rw [show matchPrefix ceq (a :: w) (c :: raGo pat repl rest 0) =
                  (ceq a c && matchPrefix ceq w (raGo pat repl rest 0)) from rfl,
                Bool.and_eq_true] at h
              have hw : w = q.drop (k+1) := by
                have : (q.drop k).drop 1 = q.drop (k+1) := by
                  rw [List.drop_drop]
                rw [hqk] at this
                simpa using this
              have hwrest : matchPrefix ceq (q.drop (k+1)) rest = true :=
                IH.2 (k+1) (by omega) (by rw [← hw]; exact h.2)
              rw [show matchPrefix ceq (a :: w) (c :: rest) =
                  (ceq a c && matchPrefix ceq w rest) from rfl, Bool.and_eq_true]
              exact ⟨h.1, by rw [hw]; exact hwrest⟩
          · have : q.drop k = [] := List.drop_eq_nil_of_le (by omega)
            rw [this]
            rfl

theorem replaceAll_self_free {pat repl : List Char} (hp : pat ≠ [])
    (hno : noOverlap ceq pat repl = true) (s : List Char) :
    Free ceq pat (replaceAll pat repl s) := fun i =>
  (raGo_free_main pat repl pat hp hp hno s.length s le_rfl (fun _ h => h)).1 i

theorem replaceAll_preserves_free {pat repl q : List Char} (hp : pat ≠ []) (hq : q ≠ [])
    (hno : noOverlap ceq q repl = true) {s : List Char} (hfree : Free ceq q s) :
    Free ceq q (replaceAll pat repl s) := fun i =>
  (raGo_free_main pat repl q hp hq hno s.length s le_rfl
    (fun j hj => absurd hj (by simp [hfree j]))).1 i

theorem replaceAll_stable {pat repl : List Char} {s : List Char} (hfree : Free ceq pat s) :
    replaceAll pat repl s = s := raGo_stable pat repl s hfree

-- ### Structural lemmas about the word-substitution scanner `swGo`

theorem lastOpt_cons (prev : Option Char) (c : Char) (l : List Char) :
    lastOpt prev (c :: l) = lastOpt (some c) l := by
  cases l with
  | nil => rfl
  | cons d l' =>
    unfold lastOpt
    rw [List.getLast?_cons_cons]
    cases hgl : (d :: l').getLast? with
    | none => simp at hgl
    | some x => rfl

theorem lastOpt_take : ∀ (rest : List Char) (j : Nat) (c : Char), j ≤ rest.length →
    lastOpt (some c) (rest.take j) = (c :: rest)[j]? := by
  intro rest
  induction rest with
  | nil =>
    intro j c hj
    have : j = 0 := by simpa using hj
    subst this
    rfl
  | cons d r' ih =>
    intro j c hj
    cases j with
    | zero => rfl
    | succ j' =>
      rw [List.take_succ_cons, lastOpt_cons]
      rw [ih j' d (by simpa using hj)]
      rw [List.getElem?_cons_succ]

theorem swGo_cons_eq (eq : Char → Char → Bool) (alts : List (List Char)) (repl : List Char)
    (c : Char) (rest : List Char) (prev : Option Char) :
    swGo eq alts repl (c :: rest) prev 0 =
      if isWordOpt prev != isWordChar c then
        match tryAlts eq alts (c :: rest) with
        | some k => repl ++ swGo eq alts repl rest (some c) (k - 1)
        | none => c :: swGo eq alts repl rest (some c) 0
      else c :: swGo eq alts repl rest (some c) 0 := rfl

theorem swGo_skip (eq : Char → Char → Bool) (alts : List (List Char)) (repl : List Char) :
    ∀ (k : Nat) (s : List Char) (prev : Option Char),
    swGo eq alts repl s prev k = swGo eq alts repl (s.drop k) (lastOpt prev (s.take k)) 0 := by
  intro k
  induction k with
  | zero =>
    intro s prev
    rw [List.drop_zero, List.take_zero]
    rfl
  | succ k ih =>
    intro s prev
    cases s with
    | nil => rfl
    | cons c rest =>
      rw [show swGo eq alts repl (c :: rest) prev (k+1) = swGo eq alts repl rest (some c) k
        from rfl, ih, List.drop_succ_cons, List.take_succ_cons, lastOpt_cons]

theorem tryAlts_none {eq : Char → Char → Bool} {alts : List (List Char)} {t : List Char}
    (h : tryAlts eq alts t = none) :
    ∀ alt ∈ alts, (!alt.isEmpty && matchPrefix eq alt t &&
      (isWordOpt t[alt.length - 1]? != isWordOpt t[alt.length]?)) = false := by
  intro alt hmem
  have hx := List.findSome?_eq_none_iff.mp h alt hmem
  by_contra hcond
  rw [Bool.not_eq_false] at hcond
  rw [if_pos hcond] at hx
  exact absurd hx (by simp)

theorem tryAlts_some {eq : Char → Char → Bool} {alts : List (List Char)} {t : List Char}
    {k : Nat} (h : tryAlts eq alts t = some k) :
    ∃ alt ∈ alts, alt.length = k ∧ alt ≠ [] ∧ matchPrefix eq alt t = true ∧
      (isWordOpt t[alt.length - 1]? != isWordOpt t[alt.length]?) = true := by
  obtain ⟨alt, hmem, halt⟩ := List.exists_of_findSome?_eq_some h
  by_cases hcond : (!alt.isEmpty && matchPrefix eq alt t &&
      (isWordOpt t[alt.length - 1]? != isWordOpt t[alt.length]?)) = true
  · rw [if_pos hcond] at halt
    rw [Bool.and_eq_true, Bool.and_eq_true] at hcond
    refine ⟨alt, hmem, by simpa using halt, ?_, hcond.1.2, hcond.2⟩
    intro hnil
    rw [hnil] at hcond
    simp at hcond
  · rw [if_neg hcond] at halt
    exact absurd halt (by simp)

theorem matched_word {eq' : Char → Char → Bool} {b t : List Char}
    (hWb : ∀ (j : Nat) (ch : Char), eqCh eq' b[j]? (some ch) = true → isWordChar ch = true)
    (hm : matchPrefix eq' b t = true) {j : Nat} (hj : j < b.length) :
    isWordOpt t[j]? = true := by
  have hg := matchPrefix_getElem hm j hj
  cases ht : t[j]? with
  | none =>
    rw [ht] at hg
    cases hb : b[j]? <;> rw [hb] at hg <;> simp [eqCh] at hg
  | some ch =>
    rw [ht] at hg
    simpa [isWordOpt] using hWb j ch hg

theorem WBMCtx_drop (eq : Char → Char → Bool) (a : List Char) (prev prev2 : Option Char)
    (s : List Char) (k j : Nat) (ha : a ≠ [])
    (hprev : prevAt prev s k = isWordOpt prev2) :
    WBMCtx eq a prev2 (s.drop k) j ↔ WBMCtx eq a prev s (k + j) := by
  have hlen : 1 ≤ a.length := by
    cases a with
    | nil => exact absurd rfl ha
    | cons x xs => simp
  unfold WBMCtx
  have h1 : (s.drop k).drop j = s.drop (k + j) := by
    rw [List.drop_drop]
  have h2 : prevAt prev2 (s.drop k) j = prevAt prev s (k + j) := by
    cases j with
    | zero =>
      rw [Nat.add_zero]
      exact hprev.symm
    | succ j' =>
      show isWordOpt (s.drop k)[j' + 1 - 1]? = prevAt prev s (k + (j' + 1))
      unfold prevAt
      rw [if_neg (by omega)]
      rw [show j' + 1 - 1 = j' from rfl, List.getElem?_drop]
      rw [show k + (j' + 1) - 1 = k + j' from by omega]
  have h3 : (s.drop k)[j + a.length - 1]? = s[k + j + a.length - 1]? := by
    rw [show j + a.length - 1 = (j + a.length - 1) from rfl, List.getElem?_drop]
    rw [show k + (j + a.length - 1) = k + j + a.length - 1 from by omega]
  have h4 : (s.drop k)[j + a.length]? = s[k + j + a.length]? := by
    rw [List.getElem?_drop]
    rw [show k + (j + a.length) = k + j + a.length from by omega]
  have h5 : (s.drop k)[j]? = s[k + j]? := List.getElem?_drop ..
  rw [h1, h2, h3, h4, h5]

theorem WBMCtx_shift_out {eq : Char → Char → Bool} {a : List Char} {prev : Option Char}
    (prev2 : Option Char) {R Z : List Char} (ha : a ≠ []) (hR : R ≠ [])
    (hlast : isWordOpt R[R.length - 1]? = isWordOpt prev2) {i : Nat} (hi : R.length ≤ i) :
    WBMCtx eq a prev (R ++ Z) i → WBMCtx eq a prev2 Z (i - R.length) := by
  intro h
  obtain ⟨hm, hs, he⟩ := h
  have hlen : 1 ≤ a.length := List.length_pos.mpr ha
  have hRlen : 1 ≤ R.length := List.length_pos.mpr hR
  have hget : ∀ (m : Nat), R.length ≤ m → (R ++ Z)[m]? = Z[m - R.length]? := by
    intro m hm'
    rw [List.getElem?_append_right hm']
  refine ⟨?_, ?_, ?_⟩
  · rw [show (R ++ Z).drop i = Z.drop (i - R.length) by
      rw [List.drop_append_eq_append_drop, List.drop_eq_nil_of_le (by omega),
        List.nil_append]] at hm
    exact hm
  · unfold prevAt at hs ⊢
    rw [if_neg (by omega : ¬ i = 0)] at hs
    by_cases hi0 : i - R.length = 0
    · rw [if_pos hi0]
      have h1 : (R ++ Z)[i - 1]? = R[R.length - 1]? := by
        rw [List.getElem?_append_left (by omega)]
        congr 1
        omega
      have h2 : (R ++ Z)[i]? = Z[i - R.length]? := hget i hi
      rw [h1, hlast, h2] at hs
      exact hs
    · rw [if_neg hi0]
      have h1 : (R ++ Z)[i - 1]? = Z[i - R.length - 1]? := by
        rw [List.getElem?_append_right (by omega : R.length ≤ i - 1)]
        congr 1
        omega
      have h2 : (R ++ Z)[i]? = Z[i - R.length]? := hget i hi
      rw [h1, h2] at hs
      exact hs
  · have h3 : (R ++ Z)[i + a.length - 1]? = Z[i - R.length + a.length - 1]? := by
      rw [List.getElem?_append_right (by omega : R.length ≤ i + a.length - 1)]
      congr 1
      omega
    have h4 : (R ++ Z)[i + a.length]? = Z[i - R.length + a.length]? := by
      rw [List.getElem?_append_right (by omega : R.length ≤ i + a.length)]
      congr 1
      omega
    rw [h3, h4] at he
    exact he

theorem swGo_match_eq {eq : Char → Char → Bool} {alts : List (List Char)} {repl : List Char}
    {c : Char} {rest : List Char} {prev : Option Char} {k : Nat}
    (hb : (isWordOpt prev != isWordChar c) = true)
    (ht : tryAlts eq alts (c :: rest) = some k) (hk : 1 ≤ k) (hkl : k - 1 ≤ rest.length) :
    swGo eq alts repl (c :: rest) prev 0 =
      repl ++ swGo eq alts repl ((c :: rest).drop k) ((c :: rest)[k-1]?) 0 := by
  rw [swGo_cons_eq, if_pos hb, ht]
  show repl ++ swGo eq alts repl rest (some c) (k-1) = _
  rw [swGo_skip, lastOpt_take rest (k-1) c hkl]
  congr 1
  cases k with
  | zero => omega
  | succ k' =>
    rw [show k' + 1 - 1 = k' from rfl, List.drop_succ_cons]

theorem swGo_stable (eq : Char → Char → Bool) (alts : List (List Char)) (repl : List Char)
    (halts : ∀ a ∈ alts, a ≠ []) :
    ∀ (s : List Char) (prev : Option Char),
    (∀ a ∈ alts, ∀ i, ¬ WBMCtx eq a prev s i) → swGo eq alts repl s prev 0 = s := by
  intro s
  induction s with
  | nil => intro prev _; rfl
  | cons c rest ih =>
    intro prev h
    have hrest : ∀ a ∈ alts, ∀ i, ¬ WBMCtx eq a (some c) rest i := by
      intro a hmem i hocc
      exact h a hmem (1 + i)
        ((WBMCtx_drop eq a prev (some c) (c :: rest) 1 i (halts a hmem)
          (by simp [prevAt])).mp hocc)
    by_cases hw : (isWordOpt prev != isWordChar c) = true
    · rw [swGo_cons_eq, if_pos hw]
      cases htry : tryAlts eq alts (c :: rest) with
      | none =>
        show c :: swGo eq alts repl rest (some c) 0 = c :: rest
        rw [ih (some c) hrest]
      | some k =>
        exfalso
        obtain ⟨alt, hmem, hlenA, hne, hmp, hend⟩ := tryAlts_some htry
        apply h alt hmem 0
        refine ⟨by simpa using hmp, ?_, ?_⟩
        · simpa [prevAt, isWordOpt] using hw
        · simpa using hend
    · rw [swGo_cons_eq, if_neg hw]
      show c :: swGo eq alts repl rest (some c) 0 = c :: rest
      rw [ih (some c) hrest]

theorem PartialWB_cons_back {eq' : Char → Char → Bool} {b : List Char} {c : Char}
    {Z rest : List Char} {k : Nat}
    (h : PartialWB eq' (b.drop k) (c :: Z))
    (hstep : PartialWB eq' (b.drop (k+1)) Z → PartialWB eq' (b.drop (k+1)) rest) :
    PartialWB eq' (b.drop k) (c :: rest) := by
  by_cases hkb : k < b.length
  · obtain ⟨hm, hb2⟩ := h
    rcases hbk : b.drop k with _ | ⟨a, w⟩
    · exfalso
      have := congrArg List.length hbk
      simp at this
      omega
    · rw [hbk] at hm hb2
      rw [show matchPrefix eq' (a :: w) (c :: Z) = (eq' a c && matchPrefix eq' w Z) from rfl,
        Bool.and_eq_true] at hm
      have hw : w = b.drop (k+1) := by
        have h' : (b.drop k).drop 1 = b.drop (k+1) := by rw [List.drop_drop]
        rw [hbk] at h'
        simpa using h'
      have hZ : PartialWB eq' (b.drop (k+1)) Z := by
        rw [← hw]
        refine ⟨hm.2, ?_⟩
        simpa [List.getElem?_cons_succ] using hb2
      have hrest := hstep hZ
      rw [← hw] at hrest
      refine ⟨?_, ?_⟩
      · rw [show matchPrefix eq' (a :: w) (c :: rest) = (eq' a c && matchPrefix eq' w rest)
          from rfl, Bool.and_eq_true]
        exact ⟨hm.1, hrest.1⟩
      · simpa [List.getElem?_cons_succ] using hrest.2
  · have hbk : b.drop k = [] := List.drop_eq_nil_of_le (by omega)
    rw [hbk] at h ⊢
    exact ⟨rfl, by simpa using h.2⟩

theorem swGo_partWB {eq eq' : Char → Char → Bool} {alts : List (List Char)} {repl : List Char}
    (hreplH : isWordOpt repl[0]? = true) {b : List Char}
    (hno : noOverlap eq' b repl = true) :
    ∀ (s : List Char) (prev : Option Char) (k : Nat), 0 < k →
      PartialWB eq' (b.drop k) (swGo eq alts repl s prev 0) → PartialWB eq' (b.drop k) s := by
  have hrepl : repl ≠ [] := by
    intro h
    rw [h] at hreplH
    simp [isWordOpt] at hreplH
  intro s
  induction s with
  | nil => intro prev k _ h; exact h
  | cons c rest ih =>
    intro prev k hk h
    by_cases hw : (isWordOpt prev != isWordChar c) = true
    · cases htry : tryAlts eq alts (c :: rest) with
      | some k' =>
        obtain ⟨alt, hmemA, hlenA, hneA, hmpA, _⟩ := tryAlts_some htry
        have hk1 : 1 ≤ k' := by
          rw [← hlenA]
          exact List.length_pos.mpr hneA
        have hkr : k' - 1 ≤ rest.length := by
          have hle := matchPrefix_length_le hmpA
          rw [hlenA] at hle
          simp at hle
          omega
        rw [swGo_match_eq hw htry hk1 hkr] at h
        exfalso
        by_cases hkb : k < b.length
        · exact absurd h.1 (by simp [noOverlap_before hno hk hkb])
        · have hbk : b.drop k = [] := List.drop_eq_nil_of_le (by omega)
          rw [hbk] at h
          have h2 := h.2
          simp only [List.length_nil] at h2
          rw [List.getElem?_append_left (List.length_pos.mpr hrepl), hreplH] at h2
          exact absurd h2 (by simp)
      | none =>
        have hstep : swGo eq alts repl (c :: rest) prev 0 =
            c :: swGo eq alts repl rest (some c) 0 := by
          rw [swGo_cons_eq, if_pos hw, htry]
        rw [hstep] at h
        exact PartialWB_cons_back h (ih (some c) (k+1) (by omega))
    · have hstep : swGo eq alts repl (c :: rest) prev 0 =
          c :: swGo eq alts repl rest (some c) 0 := by
        rw [swGo_cons_eq, if_neg hw]
      rw [hstep] at h
      exact PartialWB_cons_back h (ih (some c) (k+1) (by omega))

theorem swGo_partPlain {eq : Char → Char → Bool} {alts : List (List Char)}
    {repl : List Char} {q : List Char} (hno : noOverlap ceq q repl = true) :
    ∀ (s : List Char) (prev : Option Char) (k : Nat), 0 < k →
      matchPrefix ceq (q.drop k) (swGo eq alts repl s prev 0) = true →
      matchPrefix ceq (q.drop k) s = true := by
  intro s
  induction s with
  | nil => intro prev k _ h; exact h
  | cons c rest ih =>
    intro prev k hk h
    have hkept : ∀ (Z : List Char),
        matchPrefix ceq (q.drop k) (c :: Z) = true →
        (matchPrefix ceq (q.drop (k+1)) Z = true → matchPrefix ceq (q.drop (k+1)) rest = true) →
        matchPrefix ceq (q.drop k) (c :: rest) = true := by
      intro Z hmz hstep
      by_cases hkq : k < q.length
      · rcases hbk : q.drop k with _ | ⟨a, w⟩
        · exfalso
          have := congrArg List.length hbk
          simp at this
          omega
        · rw [hbk] at hmz
          rw [show matchPrefix ceq (a :: w) (c :: Z) = (ceq a c && matchPrefix ceq w Z)
            from rfl, Bool.and_eq_true] at hmz
          have hweq : w = q.drop (k+1) := by
            have h' : (q.drop k).drop 1 = q.drop (k+1) := by rw [List.drop_drop]
            rw [hbk] at h'
            simpa using h'
          have hwrest := hstep (by rw [← hweq]; exact hmz.2)
          rw [show matchPrefix ceq (a :: w) (c :: rest) = (ceq a c && matchPrefix ceq w rest)
            from rfl, Bool.and_eq_true]
          exact ⟨hmz.1, by rw [hweq]; exact hwrest⟩
      · rw [List.drop_eq_nil_of_le (by omega : q.length ≤ k)]
        rfl
    by_cases hw : (isWordOpt prev != isWordChar c) = true
    · cases htry : tryAlts eq alts (c :: rest) with
      | some k' =>
        obtain ⟨alt, hmemA, hlenA, hneA, hmpA, _⟩ := tryAlts_some htry
        have hk1 : 1 ≤ k' := by
          rw [← hlenA]
          exact List.length_pos.mpr hneA
        have hkr : k' - 1 ≤ rest.length := by
          have hle := matchPrefix_length_le hmpA
          rw [hlenA] at hle
          simp at hle
          omega
        rw [swGo_match_eq hw htry hk1 hkr] at h
        by_cases hkq : k < q.length
        · exact absurd h (by simp [noOverlap_before hno hk hkq])
        · rw [List.drop_eq_nil_of_le (by omega : q.length ≤ k)]
          rfl
      | none =>
        have hstep : swGo eq alts repl (c :: rest) prev 0 =
            c :: swGo eq alts repl rest (some c) 0 := by
          rw [swGo_cons_eq, if_pos hw, htry]
        rw [hstep] at h
        exact hkept _ h (ih (some c) (k+1) (by omega))
    · have hstep : swGo eq alts repl (c :: rest) prev 0 =
          c :: swGo eq alts repl rest (some c) 0 := by
        rw [swGo_cons_eq, if_neg hw]
      rw [hstep] at h
      exact hkept _ h (ih (some c) (k+1) (by omega))

theorem swGo_preserves_free {eq : Char → Char → Bool} {alts : List (List Char)}
    {repl : List Char} {q : List Char} (hq : q ≠ [])
    (hno : noOverlap ceq q repl = true) :
    ∀ (n : Nat) (s : List Char) (prev : Option Char), s.length ≤ n → Free ceq q s →
      Free ceq q (swGo eq alts repl s prev 0) := by
  have hnil : Free ceq q ([] : List Char) := by
    intro i
    rw [List.drop_nil]
    cases q with
    | nil => exact absurd rfl hq
    | cons a as => rfl
  intro n
  induction n with
  | zero =>
    intro s prev hlen _
    have hs : s = [] := by
      cases s with
      | nil => rfl
      | cons c rest => simp at hlen
    subst hs
    exact hnil
  | succ n ih =>
    intro s prev hlen hfree
    cases s with
    | nil => exact hnil
    | cons c rest =>
      have hkept : swGo eq alts repl (c :: rest) prev 0 =
          c :: swGo eq alts repl rest (some c) 0 →
          Free ceq q (swGo eq alts repl (c :: rest) prev 0) := by
        intro hstep
        rw [hstep]
        intro i
        cases i with
        | succ i' =>
          show matchPrefix ceq q ((swGo eq alts repl rest (some c) 0).drop i') = false
          exact ih rest (some c) (by simpa using hlen) (Free_rest hfree) i'
        | zero =>
          rw [List.drop_zero]
          by_contra hc0
          rw [Bool.not_eq_false] at hc0
          cases q with
          | nil => exact absurd rfl hq
          | cons a q' =>
            rw [show matchPrefix ceq (a :: q') (c :: swGo eq alts repl rest (some c) 0) =
                (ceq a c && matchPrefix ceq q' (swGo eq alts repl rest (some c) 0)) from rfl,
              Bool.and_eq_true] at hc0
            have hq' : matchPrefix ceq ((a :: q').drop 1) rest = true := by
              cases q' with
              | nil => rfl
              | cons b q'' =>
                exact swGo_partPlain hno rest (some c) 1 (by omega) (by simpa using hc0.2)
            have hqs : matchPrefix ceq (a :: q') (c :: rest) = true := by
              rw [show matchPrefix ceq (a :: q') (c :: rest) =
                  (ceq a c && matchPrefix ceq q' rest) from rfl, Bool.and_eq_true]
              exact ⟨hc0.1, by simpa using hq'⟩
            have hf0 := hfree 0
            rw [List.drop_zero] at hf0
            exact absurd hqs (by simp [hf0])
      by_cases hw : (isWordOpt prev != isWordChar c) = true
      · cases htry : tryAlts eq alts (c :: rest) with
        | some k =>
          obtain ⟨alt, hmemA, hlenA, hneA, hmpA, _⟩ := tryAlts_some htry
          have hk1 : 1 ≤ k := by
            rw [← hlenA]
            exact List.length_pos.mpr hneA
          have hkr : k - 1 ≤ rest.length := by
            have hle := matchPrefix_length_le hmpA
            rw [hlenA] at hle
            simp at hle
            omega
          rw [swGo_match_eq hw htry hk1 hkr]
          intro i
          by_cases hi : i < repl.length
          · rw [show (repl ++ swGo eq alts repl ((c :: rest).drop k) ((c :: rest)[k-1]?) 0).drop i
                = repl.drop i ++ swGo eq alts repl ((c :: rest).drop k) ((c :: rest)[k-1]?) 0 by
              rw [List.drop_append_eq_append_drop, show i - repl.length = 0 by omega,
                List.drop_zero]]
            exact noOverlap_inside hno hi _
          · rw [show (repl ++ swGo eq alts repl ((c :: rest).drop k) ((c :: rest)[k-1]?) 0).drop i
                = (swGo eq alts repl ((c :: rest).drop k) ((c :: rest)[k-1]?) 0).drop
                  (i - repl.length) by
              rw [List.drop_append_eq_append_drop, List.drop_eq_nil_of_le (by omega),
                List.nil_append]]
            exact ih ((c :: rest).drop k) ((c :: rest)[k-1]?)
              (by
                rw [List.length_drop]
                simp only [List.length_cons]
                simp only [List.length_cons] at hlen
                omega) (Free_drop hfree k) (i - repl.length)
        | none =>
          exact hkept (by rw [swGo_cons_eq, if_pos hw, htry])
      · exact hkept (by rw [swGo_cons_eq, if_neg hw])

theorem wb_reconstruct {eq' : Char → Char → Bool} {b : List Char} {c : Char}
    {rest Z : List Char} {prev : Option Char} (hbne : b ≠ [])
    (hWb : ∀ (j : Nat) (ch : Char), eqCh eq' b[j]? (some ch) = true → isWordChar ch = true)
    (hocc : WBMCtx eq' b prev (c :: Z) 0)
    (htrans : PartialWB eq' (b.drop 1) Z → PartialWB eq' (b.drop 1) rest) :
    WBMCtx eq' b prev (c :: rest) 0 := by
  obtain ⟨hm, hs, he⟩ := hocc
  rw [List.drop_zero] at hm
  have hlen : 1 ≤ b.length := List.length_pos.mpr hbne
  have hword : isWordOpt (c :: Z)[b.length - 1]? = true :=
    matched_word hWb hm (by omega)
  have hzero : (0 : Nat) + b.length - 1 = b.length - 1 := by omega
  have hzero2 : (0 : Nat) + b.length = b.length := by omega
  rw [hzero, hzero2] at he
  have he' : isWordOpt (c :: Z)[b.length]? = false := by
    rw [hword] at he
    cases hx : isWordOpt (c :: Z)[b.length]?
    · rfl
    · rw [hx] at he
      simp at he
  obtain ⟨b0, b', rfl⟩ : ∃ x xs, b = x :: xs := by
    cases b with
    | nil => exact absurd rfl hbne
    | cons x xs => exact ⟨x, xs, rfl⟩
  rw [show matchPrefix eq' (b0 :: b') (c :: Z) = (eq' b0 c && matchPrefix eq' b' Z) from rfl,
    Bool.and_eq_true] at hm
  have hZpart : PartialWB eq' b' Z := by
    refine ⟨hm.2, ?_⟩
    simpa [List.getElem?_cons_succ] using he'
  have hrest : PartialWB eq' b' rest := htrans hZpart
  have hmr : matchPrefix eq' (b0 :: b') (c :: rest) = true := by
    rw [show matchPrefix eq' (b0 :: b') (c :: rest) = (eq' b0 c && matchPrefix eq' b' rest)
      from rfl, Bool.and_eq_true]
    exact ⟨hm.1, hrest.1⟩
  have hs' : (prevAt prev (c :: rest) 0 != isWordOpt (c :: rest)[0]?) = true := by
    have h2 : (c :: Z)[0]? = (c :: rest)[0]? := by simp
    rw [h2] at hs
    exact hs
  refine ⟨by rw [List.drop_zero]; exact hmr, hs', ?_⟩
  rw [hzero, hzero2]
  have hwordr : isWordOpt (c :: rest)[(b0 :: b').length - 1]? = true :=
    matched_word hWb hmr (by omega)
  rw [hwordr]
  rw [show (c :: rest)[(b0 :: b').length]? = rest[b'.length]? from by
    simp [List.getElem?_cons_succ]]
  rw [hrest.2]
  rfl

theorem isEmpty_false_of_ne {a : List Char} (h : a ≠ []) : (!a.isEmpty) = true := by
  cases a with
  | nil => exact absurd rfl h
  | cons x xs => rfl

theorem swGo_no_self {eq : Char → Char → Bool} {alts : List (List Char)} {repl : List Char}
    (hreplH : isWordOpt repl[0]? = true)
    (hreplL : isWordOpt repl[repl.length - 1]? = true)
    (hW : WordAlts eq alts)
    (hno : ∀ a ∈ alts, noOverlap eq a repl = true) :
    ∀ (n : Nat) (s : List Char) (prev : Option Char), s.length ≤ n →
      ∀ a ∈ alts, ∀ i, ¬ WBMCtx eq a prev (swGo eq alts repl s prev 0) i := by
  have hrepl : repl ≠ [] := by
    intro h
    rw [h] at hreplH
    simp [isWordOpt] at hreplH
  have hnil : ∀ (prev : Option Char), ∀ a ∈ alts, ∀ i,
      ¬ WBMCtx eq a prev (swGo eq alts repl [] prev 0) i := by
    intro prev a hmem i hocc
    obtain ⟨hm, _, _⟩ := hocc
    rw [show swGo eq alts repl [] prev 0 = [] from rfl, List.drop_nil] at hm
    obtain ⟨a0, a', rfl⟩ : ∃ x xs, a = x :: xs := by
      cases a with
      | nil => exact absurd rfl (hW [] hmem).1
      | cons x xs => exact ⟨x, xs, rfl⟩
    exact absurd hm (by simp [matchPrefix])
  intro n
  induction n with
  | zero =>
    intro s prev hlen
    have hs : s = [] := by
      cases s with
      | nil => rfl
      | cons c rest => simp at hlen
    subst hs
    exact hnil prev
  | succ n ih =>
    intro s prev hlen
    cases s with
    | nil => exact hnil prev
    | cons c rest =>
      intro a hmem i hocc
      by_cases hw : (isWordOpt prev != isWordChar c) = true
      · cases htry : tryAlts eq alts (c :: rest) with
        | some k =>
          obtain ⟨alt, hmemA, hlenA, hneA, hmpA, _⟩ := tryAlts_some htry
          have hk1 : 1 ≤ k := by
            rw [← hlenA]
            exact List.length_pos.mpr hneA
          have hkr : k - 1 ≤ rest.length := by
            have hle := matchPrefix_length_le hmpA
            rw [hlenA] at hle
            simp at hle
            omega
          rw [swGo_match_eq hw htry hk1 hkr] at hocc
          by_cases hi : i < repl.length
          · obtain ⟨hm, _, _⟩ := hocc
            rw [show (repl ++ swGo eq alts repl ((c :: rest).drop k) ((c :: rest)[k-1]?) 0).drop i
                = repl.drop i ++ swGo eq alts repl ((c :: rest).drop k) ((c :: rest)[k-1]?) 0 by
              rw [List.drop_append_eq_append_drop, show i - repl.length = 0 by omega,
                List.drop_zero]] at hm
            exact absurd hm (by simp [noOverlap_inside (hno a hmem) hi])
          · have hprev2 : isWordOpt ((c :: rest)[k-1]?) = true := by
              have := matched_word (hW alt hmemA).2 hmpA (j := k-1) (by omega)
              exact this
            have hocc' := WBMCtx_shift_out ((c :: rest)[k-1]?) (hW a hmem).1 hrepl
              (by rw [hreplL, hprev2]) (by omega) hocc
            exact ih ((c :: rest).drop k) ((c :: rest)[k-1]?)
              (by
                rw [List.length_drop]
                simp only [List.length_cons]
                simp only [List.length_cons] at hlen
                omega)
              a hmem (i - repl.length) hocc'
        | none =>
          have hstep : swGo eq alts repl (c :: rest) prev 0 =
              c :: swGo eq alts repl rest (some c) 0 := by
            rw [swGo_cons_eq, if_pos hw, htry]
          rw [hstep] at hocc
          cases i with
          | succ i' =>
            have hocc' : WBMCtx eq a (some c) (swGo eq alts repl rest (some c) 0) i' := by
              apply (WBMCtx_drop eq a prev (some c)
                (c :: swGo eq alts repl rest (some c) 0) 1 i' (hW a hmem).1
                (by simp [prevAt])).mpr
              rw [show 1 + i' = i' + 1 from by omega]
              exact hocc
            exact ih rest (some c) (by simpa using hlen) a hmem i' hocc'
          | zero =>
            have hrecon := wb_reconstruct (hW a hmem).1 (hW a hmem).2 hocc
              (swGo_partWB hreplH (hno a hmem) rest (some c) 1 (by omega))
            obtain ⟨hm0, _, he0⟩ := hrecon
            have hcnone := tryAlts_none htry a hmem
            have hconds : (!a.isEmpty && matchPrefix eq a (c :: rest) &&
                (isWordOpt (c :: rest)[a.length - 1]? != isWordOpt (c :: rest)[a.length]?))
                = true := by
              rw [Bool.and_eq_true, Bool.and_eq_true]
              refine ⟨⟨isEmpty_false_of_ne (hW a hmem).1, ?_⟩, ?_⟩
              · rw [List.drop_zero] at hm0
                exact hm0
              · have hz1 : (0:Nat) + a.length - 1 = a.length - 1 := by omega
                have hz2 : (0:Nat) + a.length = a.length := by omega
                rw [hz1, hz2] at he0
                exact he0
            rw [hconds] at hcnone
            exact absurd hcnone (by simp)
      · have hstep : swGo eq alts repl (c :: rest) prev 0 =
            c :: swGo eq alts repl rest (some c) 0 := by
          rw [swGo_cons_eq, if_neg hw]
        rw [hstep] at hocc
        cases i with
        | succ i' =>
          have hocc' : WBMCtx eq a (some c) (swGo eq alts repl rest (some c) 0) i' := by
            apply (WBMCtx_drop eq a prev (some c)
              (c :: swGo eq alts repl rest (some c) 0) 1 i' (hW a hmem).1
              (by simp [prevAt])).mpr
            rw [show 1 + i' = i' + 1 from by omega]
            exact hocc
          exact ih rest (some c) (by simpa using hlen) a hmem i' hocc'
        | zero =>
          obtain ⟨_, hs0, _⟩ := hocc
          apply hw
          have h2 : ((c :: swGo eq alts repl rest (some c) 0))[0]? = some c := by simp
          rw [h2] at hs0
          simpa [prevAt, isWordOpt] using hs0

theorem swGo_preserves_noWB {eq eq' : Char → Char → Bool} {alts B : List (List Char)}
    {repl : List Char}
    (hreplH : isWordOpt repl[0]? = true)
    (hreplL : isWordOpt repl[repl.length - 1]? = true)
    (hWalts : WordAlts eq alts) (hWB : WordAlts eq' B)
    (hnoB : ∀ b ∈ B, noOverlap eq' b repl = true) :
    ∀ (n : Nat) (s : List Char) (prev : Option Char), s.length ≤ n →
      (∀ b ∈ B, ∀ i, ¬ WBMCtx eq' b prev s i) →
      ∀ b ∈ B, ∀ i, ¬ WBMCtx eq' b prev (swGo eq alts repl s prev 0) i := by
  have hrepl : repl ≠ [] := by
    intro h
    rw [h] at hreplH
    simp [isWordOpt] at hreplH
  have hnil : ∀ (prev : Option Char), ∀ b ∈ B, ∀ i,
      ¬ WBMCtx eq' b prev (swGo eq alts repl [] prev 0) i := by
    intro prev b hmem i hocc
    obtain ⟨hm, _, _⟩ := hocc
    rw [show swGo eq alts repl [] prev 0 = [] from rfl, List.drop_nil] at hm
    obtain ⟨b0, b', rfl⟩ : ∃ x xs, b = x :: xs := by
      cases b with
      | nil => exact absurd rfl (hWB [] hmem).1
      | cons x xs => exact ⟨x, xs, rfl⟩
    exact absurd hm (by simp [matchPrefix])
  intro n
  induction n with
  | zero =>
    intro s prev hlen _
    have hs : s = [] := by
      cases s with
      | nil => rfl
      | cons c rest => simp at hlen
    subst hs
    exact hnil prev
  | succ n ih =>
    intro s prev hlen hsrc
    cases s with
    | nil => exact hnil prev
    | cons c rest =>
      intro b hmem i hocc
      have hkept : swGo eq alts repl (c :: rest) prev 0 =
          c :: swGo eq alts repl rest (some c) 0 → False := by
        intro hstep
        rw [hstep] at hocc
        cases i with
        | zero =>
          exact hsrc b hmem 0 (wb_reconstruct (hWB b hmem).1 (hWB b hmem).2 hocc
            (swGo_partWB hreplH (hnoB b hmem) rest (some c) 1 (by omega)))
        | succ i' =>
          have hsrc' : ∀ b' ∈ B, ∀ j, ¬ WBMCtx eq' b' (some c) rest j := by
            intro b' hmem' j hocc'
            exact hsrc b' hmem' (1 + j)
              ((WBMCtx_drop eq' b' prev (some c) (c :: rest) 1 j (hWB b' hmem').1
                (by simp [prevAt])).mp hocc')
          have hocc' : WBMCtx eq' b (some c) (swGo eq alts repl rest (some c) 0) i' := by
            apply (WBMCtx_drop eq' b prev (some c)
              (c :: swGo eq alts repl rest (some c) 0) 1 i' (hWB b hmem).1
              (by simp [prevAt])).mpr
            rw [show 1 + i' = i' + 1 from by omega]
            exact hocc
          exact ih rest (some c) (by simpa using hlen) hsrc' b hmem i' hocc'
      by_cases hw : (isWordOpt prev != isWordChar c) = true
      · cases htry : tryAlts eq alts (c :: rest) with
        | some k =>
          obtain ⟨alt, hmemA, hlenA, hneA, hmpA, _⟩ := tryAlts_some htry
          have hk1 : 1 ≤ k := by
            rw [← hlenA]
            exact List.length_pos.mpr hneA
          have hkr : k - 1 ≤ rest.length := by
            have hle := matchPrefix_length_le hmpA
            rw [hlenA] at hle
            simp at hle
            omega
          rw [swGo_match_eq hw htry hk1 hkr] at hocc
          by_cases hi : i < repl.length
          · obtain ⟨hm, _, _⟩ := hocc
            rw [show (repl ++ swGo eq alts repl ((c :: rest).drop k) ((c :: rest)[k-1]?) 0).drop i
                = repl.drop i ++ swGo eq alts repl ((c :: rest).drop k) ((c :: rest)[k-1]?) 0 by
              rw [List.drop_append_eq_append_drop, show i - repl.length = 0 by omega,
                List.drop_zero]] at hm
            exact absurd hm (by simp [noOverlap_inside (hnoB b hmem) hi])
          · have hprev2 : isWordOpt ((c :: rest)[k-1]?) = true := by
              have := matched_word (hWalts alt hmemA).2 hmpA (j := k-1) (by omega)
              exact this
            have hprevAt : prevAt prev (c :: rest) k = isWordOpt ((c :: rest)[k-1]?) := by
              unfold prevAt
              rw [if_neg (by omega : ¬ k = 0)]
            have hsrc' : ∀ b' ∈ B, ∀ j, ¬ WBMCtx eq' b' ((c :: rest)[k-1]?)
                ((c :: rest).drop k) j := by
              intro b' hmem' j hocc'
              exact hsrc b' hmem' (k + j)
                ((WBMCtx_drop eq' b' prev ((c :: rest)[k-1]?) (c :: rest) k j
                  (hWB b' hmem').1 hprevAt).mp hocc')
            have hocc' := WBMCtx_shift_out ((c :: rest)[k-1]?) (hWB b hmem).1 hrepl
              (by rw [hreplL, hprev2]) (by omega) hocc
            exact ih ((c :: rest).drop k) ((c :: rest)[k-1]?)
              (by
                rw [List.length_drop]
                simp only [List.length_cons]
                simp only [List.length_cons] at hlen
                omega)
              hsrc' b hmem (i - repl.length) hocc'
        | none =>
          exact hkept (by rw [swGo_cons_eq, if_pos hw, htry])
      · exact hkept (by rw [swGo_cons_eq, if_neg hw])

-- ### Word-character closure of the IGNORECASE equivalence

theorem char_toNat_ofNat_lt {n : Nat} (h : n < 0xD800) : (Char.ofNat n).toNat = n := by
  unfold Char.ofNat
  rw [dif_pos (Or.inl h)]
  simp [Char.ofNatAux, Char.toNat, UInt32.toNat, BitVec.toNat_ofNatLt]

theorem isWordChar_of_toNat {n : Nat} (c : Char) (hc : c.toNat = n)
    (h : (0x30 ≤ n ∧ n ≤ 0x39) ∨ (0x41 ≤ n ∧ n ≤ 0x5A) ∨ (0x61 ≤ n ∧ n ≤ 0x7A) ∨
      (0xC0 ≤ n ∧ n ≤ 0x24F ∧ n ≠ 0xD7 ∧ n ≠ 0xF7) ∨ n = 0xAA ∨ n = 0xB5 ∨ n = 0xBA ∨
      (0x400 ≤ n ∧ n ≤ 0x4FF)) : isWordChar c = true := by
  unfold isWordChar isLetterOrDigit
  rw [hc]
  simp only [Bool.or_eq_true, Bool.and_eq_true, decide_eq_true_eq, bne_iff_ne, beq_iff_eq]
  exact Or.inl (by omega)

theorem word_sreLower {c : Char} (h : isWordChar c = true) :
    isWordChar (sreLower c) = true := by
  unfold sreLower
  split_ifs with h1 h2 h3 h4 h5 h6 h7
  · simp only [Bool.and_eq_true, decide_eq_true_eq] at h1
    exact isWordChar_of_toNat _ (char_toNat_ofNat_lt (by omega)) (by omega)
  · simp only [Bool.and_eq_true, decide_eq_true_eq, bne_iff_ne] at h2
    exact isWordChar_of_toNat _ (char_toNat_ofNat_lt (by omega)) (by omega)
  · decide
  · decide
  · decide
  · decide
  · simp only [Bool.and_eq_true, decide_eq_true_eq] at h7
    exact isWordChar_of_toNat _ (char_toNat_ofNat_lt (by omega)) (by omega)
  · exact h

theorem word_of_sreLower {c : Char} (h : isWordChar (sreLower c) = true) :
    isWordChar c = true := by
  unfold sreLower at h
  split_ifs at h with h1 h2 h3 h4 h5 h6 h7
  · simp only [Bool.and_eq_true, decide_eq_true_eq] at h1
    exact isWordChar_of_toNat c rfl (by omega)
  · simp only [Bool.and_eq_true, decide_eq_true_eq, bne_iff_ne] at h2
    exact isWordChar_of_toNat c rfl (by omega)
  · rw [beq_iff_eq] at h3
    subst h3
    decide
  · rw [beq_iff_eq] at h4
    subst h4
    decide
  · rw [beq_iff_eq] at h5
    exact isWordChar_of_toNat c h5 (by omega)
  · rw [beq_iff_eq] at h6
    exact isWordChar_of_toNat c h6 (by omega)
  · simp only [Bool.and_eq_true, decide_eq_true_eq] at h7
    exact isWordChar_of_toNat c rfl (by omega)
  · exact h

theorem icEq_word {a c : Char} (ha : isWordChar a = true) (h : icEq a c = true) :
    isWordChar c = true := by
  unfold icEq at h
  simp only [Bool.or_eq_true, Bool.and_eq_true, beq_iff_eq] at h
  rcases h with (((h | h) | h) | h) | h
  · apply word_of_sreLower
    rw [← h]
    exact word_sreLower ha
  · apply word_of_sreLower
    rw [h.2]
    decide
  · apply word_of_sreLower
    rw [h.2]
    decide
  · apply word_of_sreLower
    rw [h.2]
    decide
  · apply word_of_sreLower
    rw [h.2]
    decide

theorem ceq_word {a c : Char} (ha : isWordChar a = true) (h : ceq a c = true) :
    isWordChar c = true := by
  unfold ceq at h
  rw [beq_iff_eq] at h
  rw [← h]
  exact ha

theorem WordAlts_of_word {eq : Char → Char → Bool}
    (heq : ∀ x c, isWordChar x = true → eq x c = true → isWordChar c = true)
    {alts : List (List Char)}
    (h : ∀ a ∈ alts, a ≠ [] ∧ ∀ x ∈ a, isWordChar x = true) :
    WordAlts eq alts := by
  intro a hmem
  refine ⟨(h a hmem).1, ?_⟩
  intro j c hc
  cases hja : a[j]? with
  | none =>
    rw [hja] at hc
    simp [eqCh] at hc
  | some x =>
    rw [hja] at hc
    have hx : x ∈ a := List.getElem?_mem hja
    exact heq x c ((h a hmem).2 x hx) (by simpa [eqCh] using hc)

-- ### Idempotence of the English cleanup

theorem improve_english_fixed {y : List Char}
    (h1 : Free ceq "SAUTEED OF SHRIMP".data y)
    (h2 : Free ceq "ADANA STYLE KEBAP".data y)
    (h3 : Free ceq "ADANA STIL KEBAP".data y)
    (h4 : ∀ a ∈ ["STIL".data, "Stil".data, "USULÜ".data, "USULU".data], ∀ i,
      ¬ WBMCtx icEq a none y i)
    (h5 : ∀ a ∈ [("KEBAP".data : List Char)], ∀ i, ¬ WBMCtx icEq a none y i) :
    improve_english y = y := by
  by_cases hy : y = []
  · unfold improve_english
    rw [if_pos hy]
  · unfold improve_english
    rw [if_neg hy]
    rw [replaceAll_stable h1, replaceAll_stable h2, replaceAll_stable h3]
    rw [show subWord icEq ["STIL".data, "Stil".data, "USULÜ".data, "USULU".data] "Style".data y
      = y from swGo_stable _ _ _ (by decide) y none h4]
    exact swGo_stable _ _ _ (by decide) y none h5

theorem improve_english_idem (t : List Char) :
    improve_english (improve_english t) = improve_english t := by
  by_cases ht : t = []
  · subst ht
    rfl
  · have hp1 : ("SAUTEED OF SHRIMP".data : List Char) ≠ [] := by decide
    have hp2 : ("ADANA STYLE KEBAP".data : List Char) ≠ [] := by decide
    have hp3 : ("ADANA STIL KEBAP".data : List Char) ≠ [] := by decide
    have hWA1 : WordAlts icEq ["STIL".data, "Stil".data, "USULÜ".data, "USULU".data] :=
      WordAlts_of_word (fun x c hx h => icEq_word hx h) (by decide)
    have hWA2 : WordAlts icEq [("KEBAP".data : List Char)] :=
      WordAlts_of_word (fun x c hx h => icEq_word hx h) (by decide)
    have hy : improve_english t =
        subWord icEq [("KEBAP".data : List Char)] "Kebab".data
          (subWord icEq ["STIL".data, "Stil".data, "USULÜ".data, "USULU".data] "Style".data
            (replaceAll "ADANA STIL KEBAP".data "Adana Style Kebab".data
              (replaceAll "ADANA STYLE KEBAP".data "Adana Style Kebab".data
                (replaceAll "SAUTEED OF SHRIMP".data "Sauteed Shrimp".data t)))) := by
      unfold improve_english
      rw [if_neg ht]
    rw [hy]
    apply improve_english_fixed
    · exact swGo_preserves_free hp1 (by decide) _ _ none le_rfl
        (swGo_preserves_free hp1 (by decide) _ _ none le_rfl
          (replaceAll_preserves_free hp3 hp1 (by decide)
            (replaceAll_preserves_free hp2 hp1 (by decide)
              (replaceAll_self_free hp1 (by decide) t))))
    · exact swGo_preserves_free hp2 (by decide) _ _ none le_rfl
        (swGo_preserves_free hp2 (by decide) _ _ none le_rfl
          (replaceAll_preserves_free hp3 hp2 (by decide)
            (replaceAll_self_free hp2 (by decide) _)))
    · exact swGo_preserves_free hp3 (by decide) _ _ none le_rfl
        (swGo_preserves_free hp3 (by decide) _ _ none le_rfl
          (replaceAll_self_free hp3 (by decide) _))
    · exact swGo_preserves_noWB (by decide) (by decide) hWA2 hWA1 (by decide) _ _ none le_rfl
        (swGo_no_self (by decide) (by decide) hWA1 (by decide) _ _ none le_rfl)
    · exact swGo_no_self (by decide) (by decide) hWA2 (by decide) _ _ none le_rfl

-- ### Claim theorems

/-- C1, counterexample: a data row with 10 fields is emitted by the row loop with only
9 fields — the extra field is dropped — so the output field count does not equal the
input field count for rows with more than 9 fields, contrary to the claim. -/
theorem C1_counterexample :
    ((processRows 1 [["7", "ad", "en", "de", "ru", "0", "0", "0", "0", "x"].map
      String.data]).1.getD 0 []).length = 9 ∧
    ((["7", "ad", "en", "de", "ru", "0", "0", "0", "0", "x"].map String.data)).length = 10 := by
  constructor
  · decide
  · decide

/-- C1, amended: a data row (index ≥ 1) with at least 9 fields is emitted as
`process_row row`, a row of exactly 9 fields in the input's field order; the id field
(index 0) and the Turkish name field (index 1) are never altered, and only fields 2–8
are recomputed.  A 9-field row therefore keeps its field count, while a row with more
than 9 fields is emitted with exactly 9 fields (the extra fields are dropped). -/
theorem C1_amended (row : List (List Char)) (h9 : 9 ≤ row.length) :
    (process_row row).length = 9 ∧
    (process_row row).getD 0 [] = row.getD 0 [] ∧
    (process_row row).getD 1 [] = row.getD 1 [] ∧
    (row.length = 9 → (process_row row).length = row.length) ∧
    ∀ (i : Nat) (rest : List (List (List Char))), i ≠ 0 →
      (processRows i (row :: rest)).1 = process_row row :: (processRows (i+1) rest).1 := by
  refine ⟨process_row_length row, (process_row_fields row).1, (process_row_fields row).2.1,
    fun h => by rw [process_row_length, h], ?_⟩
  intro i rest hi
  rw [processRows_data hi (by omega) rest]

theorem C1_amended_witness :
    (9 : Nat) ≤ ((["1", "a", "b", "c", "d", "0", "0", "0", "0"].map String.data)).length ∧
    (process_row (["1", "a", "b", "c", "d", "0", "0", "0", "0"].map String.data)).length = 9 :=
  ⟨by decide, (C1_amended (["1", "a", "b", "c", "d", "0", "0", "0", "0"].map String.data)
    (by decide)).1⟩

/-- C2, counterexample: `improve_german` is not idempotent: on "STILSTILSUPPE" one pass
yields "STILSUPPE" (replacing the inner "STILSUPPE" recreates the compound pattern) and
a second pass yields "SUPPE". -/
theorem C2_counterexample :
    improve_german (improve_german "STILSTILSUPPE".data) ≠
      improve_german "STILSTILSUPPE".data := by
  decide

/-- C2, amended: `improve_english` and `improve_russian` are idempotent on every input
string; `improve_german` is not (see the counterexample), so the row transformation as a
whole is not idempotent either. -/
theorem C2_amended :
    (∀ s : List Char, improve_english (improve_english s) = improve_english s) ∧
    (∀ s : List Char, improve_russian (improve_russian s) = improve_russian s) :=
  ⟨improve_english_idem, improve_russian_idem⟩

/-- C3, counterexample: the claim's boundary notion "non-letter/digit characters" breaks
on the underscore: in the subject "un_" the short keyword "un" is bounded by the string
edge and by `_` (a non-letter/digit), so the claim predicts a match (result 1), but the
regex `\b` of the code treats `_` as a word character and `check_allergen` returns 0. -/
theorem C3_counterexample :
    claimShortKwMatch (normalize_turkish "un".data) (normalize_turkish "un_".data) = true ∧
    (normalize_turkish "un".data).length ≤ 2 ∧
    check_allergen "un_".data ["un".data] = 0 := by
  constructor
  · decide
  constructor
  · decide
  · decide

/-- C3, amended: `check_allergen` returns 1 iff some keyword in the set matches the
Turkish-normalized subject — a keyword whose normalized length is ≤ 2 matching only as a
whole word bounded on both sides by non-word characters (not letter, digit, or
underscore) or string edges, a longer keyword matching by plain substring containment —
and returns 0 otherwise; the result is independent of the order of the keywords. -/
theorem C3_amended (text : List Char) (ks : List (List Char)) :
    (check_allergen text ks = 1 ↔ ∃ kw ∈ ks, KwMatches kw text) ∧
    (check_allergen text ks = 0 ∨ check_allergen text ks = 1) ∧
    (∀ ks' : List (List Char), ks.Perm ks' →
      check_allergen text ks = check_allergen text ks') :=
  ⟨check_allergen_one_iff text ks, check_allergen_zero_or_one text ks,
   fun _ h => check_allergen_perm text h⟩

theorem C3_amended_witness :
    check_allergen "balık".data ["un".data, "balık".data] =
      check_allergen "balık".data ["balık".data, "un".data] :=
  (C3_amended "balık".data ["un".data, "balık".data]).2.2 _ (by decide)

/-- C4: the end-to-end scenario row ["12","Balık Köfte","Fish Balls",
"Fischbällchen STIL","Рыбные шарики  "] with four zero flags is transformed to have
flags gluten 0, milk 0, egg 0, fish 1 (the fish keyword "balık" occurs in the Turkish
name), DE field "Fischbällchen" and RU field "Рыбные шарики". -/
theorem C4_end_to_end :
    (process_csv [["id", "TR", "EN", "DE", "RU", "G", "M", "E", "F"].map String.data,
      ["12", "Balık Köfte", "Fish Balls", "Fischbällchen STIL", "Рыбные шарики  ",
       "0", "0", "0", "0"].map String.data]).1 =
    [["id", "TR", "EN", "DE", "RU", "G", "M", "E", "F"].map String.data,
     ["12", "Balık Köfte", "Fish Balls", "Fischbällchen", "Рыбные шарики",
      "0", "0", "0", "1"].map String.data] := by
  decide

/-- C5: allergen matching first maps İ→i and I→ı (before general lowercasing) in both
subject and keywords: "BALIK" normalizes to "balık" and matches the fish keyword set;
"İ" normalizes to "i" and "I" to "ı"; a keyword is normalized the same way, so the
subject "balık" matches the keyword "BALIK". -/
theorem C5_normalization :
    check_allergen "BALIK".data FISH_KEYWORDS = 1 ∧
    normalize_turkish "İ".data = "i".data ∧
    normalize_turkish "I".data = "ı".data ∧
    normalize_turkish "BALIK".data = "balık".data ∧
    check_allergen "balık".data ["BALIK".data] = 1 := by
  refine ⟨by decide, by decide, by decide, by decide, by decide⟩

/-- C6: the EN cleanup applies its literal phrase replacements before the generic
case-insensitive whole-word substitutions: "ADANA STIL KEBAP" becomes
"Adana Style Kebab" (consumed whole by the literal fix), "TAVUK USULÜ" becomes
"TAVUK Style", and the substitutions are case-insensitive ("Tavuk usulu"). -/
theorem C6_english :
    improve_english "ADANA STIL KEBAP".data = "Adana Style Kebab".data ∧
    improve_english "TAVUK USULÜ".data = "TAVUK Style".data ∧
    improve_english "Tavuk usulu".data = "Tavuk Style".data := by
  refine ⟨by decide, by decide, by decide⟩

/-- C7: the DE cleanup collapses the compound patterns first, then removes the
standalone words "STIL" and "Stil" case-sensitively (other casings such as "stil" are
untouched), then collapses whitespace runs and trims: "MERCIMEK STILSUPPE" becomes
"MERCIMEK SUPPE" and "BALIK STIL" becomes "BALIK". -/
theorem C7_german :
    improve_german "MERCIMEK STILSUPPE".data = "MERCIMEK SUPPE".data ∧
    improve_german "BALIK STIL".data = "BALIK".data ∧
    improve_german "MERCIMEK STILFILET".data = "MERCIMEK FILET".data ∧
    improve_german "HACK STILFRIKADELLE".data = "HACK FRIKADELLE".data ∧
    improve_german "x stil y".data = "x stil y".data := by
  refine ⟨by decide, by decide, by decide, by decide, by decide⟩

/-- C8: a data row (index ≥ 1) with fewer than 9 fields is emitted entirely unchanged,
the counters (rows_processed, allergens_updated, translations_improved) are not
incremented for it, and the loop always continues over all remaining rows (one output
row per input row). -/
theorem C8_short_row (i : Nat) (hi : i ≠ 0) (row : List (List Char))
    (hlen : row.length < 9) (rest : List (List (List Char))) :
    (processRows i (row :: rest)).1 = row :: (processRows (i+1) rest).1 ∧
    (processRows i (row :: rest)).2 = (processRows (i+1) rest).2 ∧
    ∀ (rows : List (List (List Char))) (j : Nat),
      (processRows j rows).1.length = rows.length := by
  rw [processRows_short hi hlen rest]
  exact ⟨rfl, rfl, fun rows j => processRows_length rows j⟩

theorem C8_short_row_witness :
    (processRows 1 [["1", "ab"].map String.data]).1 = [["1", "ab"].map String.data] := by
  have h := C8_short_row 1 (by decide) (["1", "ab"].map String.data) (by decide) []
  rw [h.1]
  rfl

/-- C9: for every row handed to the row transformer's success path, the emitted flag
fields (indices 5–8) are exactly `str(check_allergen(name_tr, K))` for the four keyword
sets, each is the string "0" or "1", and the emitted row depends only on the first five
input fields — never on the input flag values. -/
theorem C9_flags (row : List (List Char)) :
    ((process_row row).getD 5 [] = pyStr (check_allergen (row.getD 1 []) GLUTEN_KEYWORDS) ∧
     (process_row row).getD 6 [] = pyStr (check_allergen (row.getD 1 []) MILK_KEYWORDS) ∧
     (process_row row).getD 7 [] = pyStr (check_allergen (row.getD 1 []) EGG_KEYWORDS) ∧
     (process_row row).getD 8 [] = pyStr (check_allergen (row.getD 1 []) FISH_KEYWORDS)) ∧
    (∀ j : Nat, 5 ≤ j → j ≤ 8 →
      (process_row row).getD j [] = "0".data ∨ (process_row row).getD j [] = "1".data) ∧
    (∀ (f0 f1 f2 f3 f4 : List Char) (rest rest' : List (List Char)),
      process_row (f0 :: f1 :: f2 :: f3 :: f4 :: rest) =
      process_row (f0 :: f1 :: f2 :: f3 :: f4 :: rest')) := by
  refine ⟨⟨rfl, rfl, rfl, rfl⟩, ?_, fun f0 f1 f2 f3 f4 rest rest' => rfl⟩
  intro j h5 h8
  interval_cases j
  · exact pyStr_check_mem (row.getD 1 []) GLUTEN_KEYWORDS
  · exact pyStr_check_mem (row.getD 1 []) MILK_KEYWORDS
  · exact pyStr_check_mem (row.getD 1 []) EGG_KEYWORDS
  · exact pyStr_check_mem (row.getD 1 []) FISH_KEYWORDS

theorem C9_flags_witness :
    (process_row (["1", "süt", "en", "de", "ru", "9", "9", "9", "9"].map
      String.data)).getD 6 [] = "1".data := by
  have h := (C9_flags (["1", "süt", "en", "de", "ru", "9", "9", "9", "9"].map
    String.data)).1.2.1
  rw [h]
  decide

/-- C10: `check_allergen` applied to the empty subject returns 0 for every keyword set
(the guard fires before any keyword is examined), and `normalize_turkish` of the empty
string is the empty string. -/
theorem C10_empty (ks : List (List Char)) :
    check_allergen [] ks = 0 ∧ normalize_turkish [] = [] :=
  ⟨rfl, rfl⟩
